import Mathlib

/-!
# posener/subcmd: the command tree, its validation and its parser

A shallow embedding of `src/subcmd.go`.  A `*Cmd` tree is a value of the
inductive type `Cmd`; a method that mutates its receiver returns the new
receiver next to its result.  A function of the source that can return an
`error`, panic, or end the process yields a `Result`.
-/

namespace Subcmd

/-! ## Results, fatal values, error handling -/

/-- Values handed to `panic` in the source.  The two messages built with the
`%q` verb keep the quoted names as fields. -/
inductive Fatal where
  /-- A `panic("...")` with a constant text. -/
  | text (msg : String)
  /-- Value `"Illegal: parent %q and sub command %q both define positional areguments"`. -/
  | illegalPositional (parent sub : String)
  /-- Value `"sub command %q already exists"`. -/
  | subExists (name : String)
  /-- A `panic(err)` with an error whose text is `err`. -/
  | error (err : String)
  /-- The run-time panic of reading through a nil pointer. -/
  | nilDereference
  deriving DecidableEq, Repr

/-- How a call ends: it returns a value with a nil error, it returns a non-nil
error (given by its text), it panics, or it ends the process. -/
inductive Result (α : Type) where
  | ok (a : α)
  | error (err : String)
  | panic (v : Fatal)
  | exit (code : Nat)
  deriving DecidableEq, Repr

/-- The three constants of `flag.ErrorHandling`. -/
inductive ErrorHandling where
  | ContinueOnError
  | ExitOnError
  | PanicOnError
  deriving DecidableEq, Repr

/-! ## The flag host

`Cmd` embeds `*flagSet`, a wrapper of the standard library's `flag.FlagSet`
whose declaration is not part of `src/subcmd.go`. -/

/-- Modelled from the spec: one flag definition of the Flag Host (the standard
library's `flag.Flag`).  `isBool` says that the value is a boolean flag, which
needs no argument.  `reject v` tells what happens when the flag is given with
the value text `v`, where `none` stands for a boolean flag given without
`=value` (the flag set then calls `Set("true")`): the result is `none` when
the flag's `Value.Set` accepts, and otherwise the text of the error that the
flag set reports. -/
structure Flag where
  name : String
  isBool : Bool
  reject : Option String → Option String

/-- Modelled from the spec: the Flag Host, a `flag.FlagSet` as created by
`flag.NewFlagSet(name, errorHandling)` and filled by the flag-definition
calls.  Flag values are not part of the model. -/
structure FlagSet where
  errorHandling : ErrorHandling
  formal : List Flag

/-- What one step of flag parsing does with the pending tokens. -/
inductive FlagStep where
  /-- A flag was consumed; the tokens that remain. -/
  | seen (rest : List String)
  /-- Parsing stops without error; the tokens that remain. -/
  | stop (rest : List String)
  /-- Parsing fails with the given error text. -/
  | fail (err : String)
  deriving DecidableEq, Repr

/-- The text of `flag.ErrHelp`, the error of an undefined `-h` or `-help`. -/
def errHelp : String := "flag: help requested"

/-- Split a flag token body `name[=value]` at the first `=` that is not its
first character. -/
def splitValue : List Char → List Char × Option (List Char)
  | [] => ([], none)
  | c :: cs =>
    match cs.span (fun x => x != '=') with
    | (nm, []) => (c :: nm, none)
    | (nm, _ :: v) => (c :: nm, some v)

/-- Modelled from the spec: `FlagSet.parseOne` of the standard library, on the
pending tokens. "Flag parsing stops at the first token that does not look like
a flag (or at an explicit flag terminator) and returns the remaining tokens
unparsed." -/
def FlagSet.parseOne (f : FlagSet) : List String → FlagStep
  | [] => .stop []
  | s :: rest =>
    match s.data with
    | '-' :: c :: cs =>
      if c = '-' ∧ cs = [] then .stop rest
      else
        let body := if c = '-' then cs else c :: cs
        match body with
        | [] => .fail ("bad flag syntax: " ++ s)
        | b :: _ =>
          if b = '-' ∨ b = '=' then .fail ("bad flag syntax: " ++ s)
          else
            let nv := splitValue body
            let name := String.mk nv.1
            match f.formal.find? (fun fl => fl.name == name) with
            | none =>
              if name = "help" ∨ name = "h" then .fail errHelp
              else .fail ("flag provided but not defined: -" ++ name)
            | some fl =>
              if fl.isBool then
                match fl.reject (nv.2.map String.mk) with
                | some e => .fail e
                | none => .seen rest
              else
                match nv.2, rest with
                | some v, _ =>
                  match fl.reject (some (String.mk v)) with
                  | some e => .fail e
                  | none => .seen rest
                | none, v :: rest1 =>
                  match fl.reject (some v) with
                  | some e => .fail e
                  | none => .seen rest1
                | none, [] => .fail ("flag needs an argument: -" ++ name)
    | _ => .stop (s :: rest)

/-- The loop of `FlagSet.Parse`: steps until a stop or a failure.  The fuel is
the number of pending tokens; every `seen` step consumes at least one. -/
def FlagSet.parseLoop (f : FlagSet) : Nat → List String → Except String (List String)
  | 0, args => .ok args
  | n + 1, args =>
    match f.parseOne args with
    | .seen rest => f.parseLoop n rest
    | .stop rest => .ok rest
    | .fail e => .error e

/-- Modelled from the spec: `FlagSet.Parse(arguments)` followed by
`FlagSet.Args()`.  On success the result is the tokens left unparsed.  A
failure is returned, ends the process (with status 0 for `flag.ErrHelp`, as
the standard library does since Go 1.15, and with status 2 otherwise), or
panics, as the flag set's own error handling says. -/
def FlagSet.Parse (f : FlagSet) (arguments : List String) : Result (List String) :=
  match f.parseLoop (arguments.length + 1) arguments with
  | .ok rest => .ok rest
  | .error e =>
    match f.errorHandling with
    | .ContinueOnError => .error e
    | .ExitOnError => if e = errHelp then .exit 0 else .exit 2
    | .PanicOnError => .panic (.error e)

/-! ## The command tree -/

/-- Type `ArgsOpts`: options for positional arguments. -/
structure ArgsOpts where
  N : Int
  Usage : String
  Details : String
  deriving DecidableEq, Repr

/-- Type `subConfig`: configuration shared by the root command and sub commands. -/
structure subConfig where
  synopsis : String
  details : String
  deriving DecidableEq, Repr

/-- Type `config`: configuration of a command.  The `output` writer of the source
is not modelled. -/
structure config extends subConfig where
  name : String
  errorHandling : ErrorHandling
  deriving DecidableEq, Repr

/-- A `*[]string`.  `none` is the nil pointer and `some xs` points to a slice
variable that holds `xs`.  The only pointers the source creates are `&args` in
`setArgs`, each to a fresh variable that is never assigned afterwards, so a
pointer is identified with what it points to. -/
abbrev Handle := Option (List String)

/-- Reading `*h`: the slice that the pointer points to; a nil pointer cannot
be read. -/
def Handle.read (h : Handle) : Result (List String) :=
  match h with
  | none => .panic .nilDereference
  | some xs => .ok xs

/-- Type `Cmd`: a command with its flags, positional arguments and sub commands.
The map `sub` is a list of entries; a key is looked up from the front. -/
inductive Cmd where
  | mk (cfg : config) (argsOpts : Option ArgsOpts) (flagSet : FlagSet) (args : Handle)
      (sub : List (String × Cmd))

namespace Cmd

def cfg : Cmd → config
  | mk cfg _ _ _ _ => cfg

def argsOpts : Cmd → Option ArgsOpts
  | mk _ o _ _ _ => o

def flagSet : Cmd → FlagSet
  | mk _ _ f _ _ => f

def args : Cmd → Handle
  | mk _ _ _ a _ => a

def sub : Cmd → List (String × Cmd)
  | mk _ _ _ _ s => s

def name (c : Cmd) : String := c.cfg.name

def errorHandling (c : Cmd) : ErrorHandling := c.cfg.errorHandling

end Cmd

/-- The value of `c.sub[k]`: `none` stands for the nil of a missing key. -/
def subAt (sub : List (String × Cmd)) (k : String) : Option Cmd :=
  match sub with
  | [] => none
  | (k1, c) :: tl => if k1 = k then some c else subAt tl k

/-- The assignment `c.sub[k] = v`: the entry of an existing key is replaced,
a new key gets a new entry. -/
def subSet (sub : List (String × Cmd)) (k : String) (v : Cmd) : List (String × Cmd) :=
  match sub with
  | [] => [(k, v)]
  | (k1, c) :: tl => if k1 = k then (k1, v) :: tl else (k1, c) :: subSet tl k v

/-- Rendering of a `[]string` by the `%v` verb: the elements between square
brackets, separated by one blank. -/
def fmtSlice (xs : List String) : String := "[" ++ " ".intercalate xs ++ "]"

/-- Rendering of an `int` by the `%d` verb. -/
def fmtInt (n : Int) : String := toString n

/-- Function `newCmd`: a command with the given configuration, an empty flag set with
the configuration's error handling, a nil `args` pointer and no sub command. -/
def newCmd (cfg : config) : Cmd :=
  .mk cfg none { errorHandling := cfg.errorHandling, formal := [] } none []

/-- Function `Root`: the default configuration (the name is `os.Args[0]`, here
`arg0`), updated by the options in order. -/
def Root (arg0 : String) (options : List (config → config)) : Cmd :=
  newCmd (options.foldl (fun cfg o => o cfg)
    { name := arg0, errorHandling := .ExitOnError, synopsis := "", details := "" })

/-- Option `OptErrorHandling`: sets the error handling. -/
def OptErrorHandling (errorHandling : ErrorHandling) : config → config :=
  fun cfg => { cfg with errorHandling := errorHandling }

/-- Option `OptName`: sets the name of the root command. -/
def OptName (name : String) : config → config :=
  fun cfg => { cfg with name := name }

namespace Cmd

/-- Method `Cmd.SubCommand`: panics when the name is taken; otherwise creates the
sub command, named after its parent, and stores it under `name`.  Returns
the receiver afterwards and the new sub command. -/
def SubCommand (c : Cmd) (name synopsis : String) (options : List (subConfig → subConfig)) :
    Cmd × Result Cmd :=
  match subAt c.sub name with
  | some _ => (c, .panic (.subExists name))
  | none =>
    let s : subConfig := options.foldl (fun s o => o s) { synopsis := synopsis, details := "" }
    let subCmd := newCmd {
      name := c.name ++ " " ++ name
      errorHandling := c.errorHandling
      synopsis := s.synopsis
      details := s.details }
    (.mk c.cfg c.argsOpts c.flagSet c.args (subSet c.sub name subCmd), .ok subCmd)

/-- Method `Cmd.Args`: panics on a second call; otherwise installs the options (the
zero `ArgsOpts` for nil) and returns the pointer `c.args`. -/
def Args (c : Cmd) (opts : Option ArgsOpts) : Cmd × Result Handle :=
  match c.argsOpts with
  | some _ => (c, .panic (.text "Args() called more than once."))
  | none =>
    let opts := opts.getD { N := 0, Usage := "", Details := "" }
    (.mk c.cfg (some opts) c.flagSet c.args c.sub, .ok c.args)

/-- Method `Cmd.setArgs`: checks the left-over tokens against the positional options
and, when the command has options, points `c.args` to them. -/
def setArgs (c : Cmd) (args : List String) : Cmd × Result (List String) :=
  match c.argsOpts with
  | none =>
    if args.length > 0 then
      (c, .error ("positional args not expected, got " ++ fmtSlice args))
    else (c, .ok args)
  | some opt =>
    if opt.N > 0 ∧ (args.length : Int) ≠ opt.N then
      (c, .error ("required " ++ fmtInt opt.N ++ " positional args, got " ++ fmtSlice args))
    else (.mk c.cfg c.argsOpts c.flagSet (some args) c.sub, .ok [])

/-- Lines 230-236 of `Cmd.parse`: collect the positional arguments and wrap a
failure with the command's name. -/
def collect (c : Cmd) (args : List String) : Cmd × Result (List String) :=
  match c.setArgs args with
  | (c1, .error e) => (c1, .error (c.name ++ ": bad positional args: " ++ e))
  | r => r

end Cmd

mutual

/-- Method `Cmd.parse`: parse the flags of the command on `args[1:]`, hand the rest to
the sub command named by its first token, if any, and collect what is then
left as positional arguments.  Returns the command afterwards and the
result. -/
def Cmd.parse : Cmd → List String → Cmd × Result (List String)
  | .mk cfg argsOpts flagSet args0 sub, args =>
    match args with
    | [] => (.mk cfg argsOpts flagSet args0 sub,
        .panic (.text "must be at least the command in arguments"))
    | _ :: tl =>
      match flagSet.Parse tl with
      | .error e => (.mk cfg argsOpts flagSet args0 sub, .error (cfg.name ++ ": bad flags: " ++ e))
      | .panic v => (.mk cfg argsOpts flagSet args0 sub, .panic v)
      | .exit n => (.mk cfg argsOpts flagSet args0 sub, .exit n)
      | .ok [] => Cmd.collect (.mk cfg argsOpts flagSet args0 sub) []
      | .ok (a :: rest) =>
        match parseSub sub a (a :: rest) with
        | none => Cmd.collect (.mk cfg argsOpts flagSet args0 sub) (a :: rest)
        | some (sub1, .ok args1) => Cmd.collect (.mk cfg argsOpts flagSet args0 sub1) args1
        | some (sub1, .error e) =>
          (.mk cfg argsOpts flagSet args0 sub1, .error (cfg.name ++ " > " ++ e))
        | some (sub1, .panic v) => (.mk cfg argsOpts flagSet args0 sub1, .panic v)
        | some (sub1, .exit n) => (.mk cfg argsOpts flagSet args0 sub1, .exit n)

/-- The step `subcmd := c.sub[args[0]]; subcmd.parse(args)` of `Cmd.parse`:
`none` when `c.sub[k]` is nil, otherwise the map with the sub command as the
call left it, and the call's result. -/
def parseSub : List (String × Cmd) → String → List String →
    Option (List (String × Cmd) × Result (List String))
  | [], _, _ => none
  | (k1, c) :: tl, k, args =>
    if k1 = k then
      some ((k1, (Cmd.parse c args).1) :: tl, (Cmd.parse c args).2)
    else
      match parseSub tl k args with
      | none => none
      | some (tl1, r) => some ((k1, c) :: tl1, r)

end

mutual

/-- Method `Cmd.validatePositional`: `none` when the call returns, otherwise the
value it panics with.  The sub commands are visited in the order of the
entries. -/
def Cmd.validatePositional : Cmd → String → Option Fatal
  | .mk cfg argsOpts _ _ sub, parentWithPositional =>
    match argsOpts with
    | some _ =>
      if parentWithPositional ≠ "" then
        some (.illegalPositional parentWithPositional cfg.name)
      else validateSubs sub cfg.name
    | none => validateSubs sub parentWithPositional

/-- The loop over `c.sub` of `Cmd.validatePositional`. -/
def validateSubs : List (String × Cmd) → String → Option Fatal
  | [], _ => none
  | (_, c) :: tl, p =>
    match Cmd.validatePositional c p with
    | some v => some v
    | none => validateSubs tl p

end

namespace Cmd

/-- Method `Cmd.validate`: the check of the whole tree, started with no ancestor. -/
def validate (c : Cmd) : Option Fatal := c.validatePositional ""

/-- Method `Cmd.handleError`: a nil error is returned as nil; otherwise the error
handling of the command decides. -/
def handleError (c : Cmd) (err : Option String) : Result Unit :=
  match err with
  | none => .ok ()
  | some e =>
    match c.errorHandling with
    | .ExitOnError => .exit 2
    | .PanicOnError => .panic (.error e)
    | .ContinueOnError => .error e

/-- Method `Cmd.Parse`: validate, parse, and handle the error.  Returns the command
afterwards and the result; `ok ()` is the nil error. -/
def Parse (c : Cmd) (args : List String) : Cmd × Result Unit :=
  match c.validate with
  | some v => (c, .panic v)
  | none =>
    match c.parse args with
    | (c1, .ok _) => (c1, c1.handleError none)
    | (c1, .error e) => (c1, c1.handleError (some e))
    | (c1, .panic v) => (c1, .panic v)
    | (c1, .exit n) => (c1, .exit n)

end Cmd

/-! ## The vocabulary of the specification -/

/-- The names of a path of commands, root first, joined by `" > "`. -/
def joinPath : List String → String
  | [] => ""
  | [a] => a
  | a :: b :: l => a ++ " > " ++ joinPath (b :: l)

/-- Relation `Descends c d`: the command `d` is a strict descendant of `c`. -/
inductive Cmd.Descends : Cmd → Cmd → Prop where
  | sub {c d : Cmd} {k : String} : (k, d) ∈ c.sub → Cmd.Descends c d
  | step {c m d : Cmd} {k : String} : (k, m) ∈ c.sub → Cmd.Descends m d → Cmd.Descends c d

/-- Relation `Within root n`: `n` is a node of the tree `root`. -/
def Cmd.Within (root n : Cmd) : Prop := n = root ∨ root.Descends n

/-- A node of the tree and a strict descendant of it both declare a
positional spec (invariant I1 is violated). -/
def Cmd.Conflict (root : Cmd) : Prop :=
  ∃ n d, root.Within n ∧ n.Descends d ∧ n.argsOpts ≠ none ∧ d.argsOpts ≠ none

/-- The arity rule of step 4 of the parse algorithm: no token when the node
has no spec, exactly `N` tokens when `N > 0`, any number otherwise. -/
def Accepts : Option ArgsOpts → List String → Prop
  | none, L => L = []
  | some opt, L => 0 < opt.N → (L.length : Int) = opt.N

/-- The arity rule can be checked. -/
instance Accepts.decidable : (o : Option ArgsOpts) → (L : List String) → Decidable (Accepts o L)
  | none, L => inferInstanceAs (Decidable (L = []))
  | some opt, L => inferInstanceAs (Decidable (0 < opt.N → (L.length : Int) = opt.N))

/-- A command visited by a parse: the child keys that lead to it from the
root, the command, the argument vector it receives, and the tokens left over
at it after flag and sub command consumption (`none` when its flag parsing
does not succeed). -/
structure Visit where
  path : List String
  cmd : Cmd
  args : List String
  left : Option (List String)

/-- The visit is free of failure: the flags parse and the left-over tokens
satisfy the arity of the command. -/
def Visit.Passes (v : Visit) : Prop :=
  ∃ L, v.left = some L ∧ Accepts v.cmd.argsOpts L

/-- Whether a visit passes can be checked. -/
instance Visit.decidablePasses (v : Visit) : Decidable v.Passes :=
  match h : v.left with
  | none => isFalse (fun ⟨_, hL, _⟩ => by rw [h] at hL; cases hL)
  | some L =>
    if ha : Accepts v.cmd.argsOpts L then isTrue ⟨L, h, ha⟩
    else isFalse (fun ⟨L1, hL, hacc⟩ => by
      rw [h] at hL
      cases hL
      exact ha hacc)

/-- The failure that originates at a visit, as the tail of the error text: the
flag parsing of the visited command fails on the arguments it received, or its
positional binding fails on the tokens left over at it. -/
def Visit.Fails (v : Visit) (tail : String) : Prop :=
  (v.left = none ∧ ∃ cause, v.cmd.flagSet.Parse v.args.tail = .error cause ∧
    tail = ": bad flags: " ++ cause) ∨
  (∃ L cause, v.left = some L ∧ (v.cmd.setArgs L).2 = .error cause ∧
    tail = ": bad positional args: " ++ cause)

mutual

/-- The commands that parsing `args` at a command visits, root first,
following steps 1 to 3 of the parse algorithm: the flag host takes
`args[1:]`; when the first remaining token names a child, the walk goes on in
that child with the remaining tokens, which the child consumes, so that
nothing is left over at the parent; otherwise the remaining tokens are left
over here. -/
def Cmd.visits : Cmd → List String → List Visit
  | .mk cfg argsOpts flagSet args0 sub, args =>
    match flagSet.Parse args.tail with
    | .ok [] => [⟨[], .mk cfg argsOpts flagSet args0 sub, args, some []⟩]
    | .ok (a :: rest) =>
      match visitsSub sub a (a :: rest) with
      | none => [⟨[], .mk cfg argsOpts flagSet args0 sub, args, some (a :: rest)⟩]
      | some vs => ⟨[], .mk cfg argsOpts flagSet args0 sub, args, some []⟩ :: vs
    | _ => [⟨[], .mk cfg argsOpts flagSet args0 sub, args, none⟩]

/-- The visits below the child stored under `k`, if there is one. -/
def visitsSub : List (String × Cmd) → String → List String → Option (List Visit)
  | [], _, _ => none
  | (k1, c) :: tl, k, args =>
    if k1 = k then
      some ((Cmd.visits c args).map (fun v => { v with path := k :: v.path }))
    else visitsSub tl k args

end

/-- The node reached from a command by a list of child keys. -/
def nodeAt : List String → Cmd → Option Cmd
  | [], c => some c
  | k :: p, c =>
    match subAt c.sub k with
    | none => none
    | some d => nodeAt p d

/-- Relation `PathFrom c l`: the commands `l` are a path of the tree that starts at
`c`, each next one a sub command of the one before. -/
def PathFrom : Cmd → List Cmd → Prop
  | _, [] => False
  | c, [x] => x = c
  | c, x :: y :: l => x = c ∧ (∃ k, subAt x.sub k = some y) ∧ PathFrom y (y :: l)

/-! ## Calls that build a tree -/

/-- The standard library's boolean flag: `Set` accepts what
`strconv.ParseBool` accepts.  The error text quotes the value as the `%q` verb
does for a text without characters to escape. -/
def boolFlag (name : String) : Flag where
  name := name
  isBool := true
  reject := fun value =>
    match value with
    | none => none
    | some v =>
      if v ∈ ["1", "t", "T", "TRUE", "true", "True", "0", "f", "F", "FALSE", "false", "False"]
      then none
      else some ("invalid boolean value \"" ++ v ++ "\" for -" ++ name ++ ": parse error")

/-- The flag-definition call `c.Bool(name, ...)`: the flag joins the formal
flags of the command. -/
def Cmd.Bool (c : Cmd) (name : String) : Cmd :=
  .mk c.cfg c.argsOpts { c.flagSet with formal := c.flagSet.formal ++ [boolFlag name] } c.args c.sub

/-- A call made through the pointer that `SubCommand` returned: the sub
command stored under `k` is replaced by what the call leaves of it. -/
def Cmd.onSub (c : Cmd) (k : String) (f : Cmd → Cmd) : Cmd :=
  match subAt c.sub k with
  | none => c
  | some d => .mk c.cfg c.argsOpts c.flagSet c.args (subSet c.sub k (f d))

/-! ## Example trees -/

/-- A root `cmd` without positional spec. -/
def exPlain : Cmd := Root "cmd" [OptErrorHandling .ContinueOnError]

/-- A root `cmd` after `Args(nil)`. -/
def exFree : Cmd := (exPlain.Args none).1

/-- A root `mv` that requires two positional arguments. -/
def exMove : Cmd :=
  ((Root "mv" [OptErrorHandling .ContinueOnError]).Args
    (some { N := 2, Usage := "[source] [destination]", Details := "" })).1

/-- A root `cmd` with the sub commands `sub1` and `sub2`. -/
def exTwoSubs : Cmd :=
  (((exPlain.SubCommand "sub1" "first" []).1).SubCommand "sub2" "second" []).1

/-- A root whose name is set to the empty string by `OptName("")`, with
`Args(nil)`, and a sub command `a` with `Args(nil)` too. -/
def exUnnamed : Cmd :=
  ((((Root "prog" [OptName ""]).Args none).1.SubCommand "a" "" []).1).onSub "a"
    (fun d => (d.Args none).1)

/-- The root `cmd` with the boolean flag `-flag` and the sub command `sub`,
under the given error handling. -/
def exScoped (eh : ErrorHandling) : Cmd :=
  ((((Root "cmd" [OptErrorHandling eh]).Bool "flag").SubCommand "sub" "a sub command" []).1)

/-- The sub command `copy` of `exCopy`: it requires two positional
arguments. -/
def exCopySub : Cmd :=
  ((newCmd {
      name := "cmd copy"
      errorHandling := .ContinueOnError
      synopsis := "copy a file"
      details := "" }).Args (some { N := 2, Usage := "[source] [destination]", Details := "" })).1

/-- The root `cmd` with the boolean flag `-v` and the sub command `copy`,
which requires two positional arguments. -/
def exCopy : Cmd :=
  (((exPlain.Bool "v").SubCommand "copy" "copy a file" []).1).onSub "copy"
    (fun d => (d.Args (some { N := 2, Usage := "[source] [destination]", Details := "" })).1)

/-- A root `cmd` that requires two positional arguments and has the sub
command `sub`, which declares no spec. -/
def exFixedWithSub : Cmd :=
  ((exPlain.Args (some { N := 2, Usage := "", Details := "" })).1.SubCommand "sub" "" []).1

mutual

/-- The depth of a tree: the number of sub command steps on its longest
path, 0 for a command without sub commands. -/
def Cmd.depth : Cmd → Nat
  | .mk _ _ _ _ sub => depthSubs sub

/-- The greatest depth below a map of sub commands, counting the step into
the sub command. -/
def depthSubs : List (String × Cmd) → Nat
  | [] => 0
  | (_, d) :: tl => max (Cmd.depth d + 1) (depthSubs tl)

end

/-- A root `cmd` with the sub command `a`, which has the sub command `b`. -/
def exNested : Cmd :=
  (exPlain.SubCommand "a" "" []).1.onSub "a" (fun d => (d.SubCommand "b" "" []).1)

/-- A root `cmd` that requires two positional arguments, with a sub command
`sub` that declares a spec too: invariant I1 is violated. -/
def exBoth : Cmd :=
  ((exPlain.Args (some { N := 2, Usage := "", Details := "" })).1.SubCommand "sub" "" []).1.onSub
    "sub" (fun d => (d.Args none).1)

/-- A root named `""` by `OptName("")` that requires two positional
arguments and returns its errors, with a sub command `a` that declares a spec
too. -/
def exUnnamedFixed : Cmd :=
  (((Root "prog" [OptName "", OptErrorHandling .ContinueOnError]).Args
    (some { N := 2, Usage := "", Details := "" })).1.SubCommand "a" "" []).1.onSub "a"
    (fun d => (d.Args none).1)

/-- The order of strings in the source, on their characters: `as` comes
strictly before `bs`.  Strings are compared byte by byte, which for UTF-8
text is the comparison of their code points, one by one. -/
def charsLt : List Char → List Char → Bool
  | _, [] => false
  | [], _ :: _ => true
  | a :: as, b :: bs =>
    if a.toNat < b.toNat then true else if a = b then charsLt as bs else false

/-- The comparison `a <= b` of two strings. -/
def strLe (a b : String) : Bool := !charsLt b.data a.data

/-- The function `sort.Strings`: the strings in increasing order.  A list has
one sorted arrangement, whatever the sorting algorithm. -/
def sortStrings (names : List String) : List String :=
  names.insertionSort (fun a b => strLe a b = true)

/-- Method `Cmd.subNames`: the keys of `c.sub`, sorted.  The keys are taken in
the order of the entries; the map of the source yields them in any order. -/
def Cmd.subNames (c : Cmd) : List String := sortStrings (c.sub.map Prod.fst)

/-- A call made through a pointer to the node that the child keys `p` lead
to: that node is replaced by what the call leaves of it.  Without such a node
nothing happens. -/
def Cmd.update : List String → (Cmd → Cmd) → Cmd → Cmd
  | [], f, c => f c
  | k :: p, f, c =>
    match subAt c.sub k with
    | none => c
    | some d => .mk c.cfg c.argsOpts c.flagSet c.args (subSet c.sub k (Cmd.update p f d))

/-- The flag-definition calls on a command, seen as one step: the formal
flags of its flag set become `formal`. -/
def Cmd.setFormal (formal : List Flag) (c : Cmd) : Cmd :=
  .mk c.cfg c.argsOpts { c.flagSet with formal := formal } c.args c.sub

/-- The trees that a program can build: `Root` makes one, and `SubCommand`,
`Args`, flag definitions and `Parse`, called on the root or through the
pointer to any node, go on from a built tree. -/
inductive Built : Cmd → Prop where
  | root (arg0 : String) (options : List (config → config)) : Built (Root arg0 options)
  | subCommand (c : Cmd) (p : List String) (name synopsis : String)
      (options : List (subConfig → subConfig)) :
      Built c → Built (Cmd.update p (fun d => (d.SubCommand name synopsis options).1) c)
  | args (c : Cmd) (p : List String) (opts : Option ArgsOpts) :
      Built c → Built (Cmd.update p (fun d => (d.Args opts).1) c)
  | flags (c : Cmd) (p : List String) (formal : List Flag) :
      Built c → Built (Cmd.update p (Cmd.setFormal formal) c)
  | parse (c : Cmd) (p : List String) (args : List String) :
      Built c → Built (Cmd.update p (fun d => (d.Parse args).1) c)

/-- The shape that every built tree has: at each node the keys of the sub
commands are distinct, and each sub command is named after its parent and
its key. -/
def Cmd.Sound (c : Cmd) : Prop :=
  ∀ n, c.Within n → (n.sub.map Prod.fst).Nodup ∧
    ∀ k d, (k, d) ∈ n.sub → d.name = n.name ++ " " ++ k

/-- Relation `FirstSpec c d`: going down from `c`, the node `d` is the first
on its path that declares a positional spec (`c` itself when it declares
one). -/
inductive Cmd.FirstSpec : Cmd → Cmd → Prop where
  | here {c : Cmd} : c.argsOpts ≠ none → Cmd.FirstSpec c c
  | down {c m d : Cmd} {k : String} :
      c.argsOpts = none → (k, m) ∈ c.sub → Cmd.FirstSpec m d → Cmd.FirstSpec c d

/-- Relation `NearestSpecAbove a d`: the node `a` declares a positional spec and
is the nearest ancestor of `d` that does, `d` being the first node with a spec
on its path below `a`. -/
def Cmd.NearestSpecAbove (a d : Cmd) : Prop :=
  a.argsOpts ≠ none ∧ ∃ k m, (k, m) ∈ a.sub ∧ m.FirstSpec d

/-- A root `cmd` to which the sub commands `pull`, `add` and `commit` were
added in this order. -/
def exThreeSubs : Cmd :=
  (((exPlain.SubCommand "pull" "" []).1.SubCommand "add" "" []).1.SubCommand "commit" "" []).1

/-- The call `f` keeps every existing node in its place and under its
name: the node that a list of child keys led to before the call is led to by
the same keys after it, and has the same name. -/
def KeepsNames (f : Cmd → Cmd) : Prop :=
  ∀ (c : Cmd) (p : List String) (n : Cmd), nodeAt p c = some n →
    ∃ n2, nodeAt p (f c) = some n2 ∧ n2.name = n.name

/-! ## Basic facts -/

theorem Cmd.eta (c : Cmd) : Cmd.mk c.cfg c.argsOpts c.flagSet c.args c.sub = c := by
  cases c; rfl

theorem Cmd.setArgs_none (c : Cmd) (L : List String) (h : c.argsOpts = none) :
    c.setArgs L = if L.length > 0 then
      (c, .error ("positional args not expected, got " ++ fmtSlice L)) else (c, .ok L) := by
  unfold Cmd.setArgs; rw [h]

theorem Cmd.setArgs_some (c : Cmd) (opt : ArgsOpts) (L : List String)
    (h : c.argsOpts = some opt) :
    c.setArgs L = if 0 < opt.N ∧ (L.length : Int) ≠ opt.N then
      (c, .error ("required " ++ fmtInt opt.N ++ " positional args, got " ++ fmtSlice L))
      else (.mk c.cfg c.argsOpts c.flagSet (some L) c.sub, .ok []) := by
  unfold Cmd.setArgs; rw [h]

theorem Cmd.collect_of_ok (c c1 : Cmd) (L r : List String) (h : c.setArgs L = (c1, .ok r)) :
    c.collect L = (c1, .ok r) := by
  unfold Cmd.collect; rw [h]

theorem Cmd.collect_of_error (c c1 : Cmd) (L : List String) (e : String)
    (h : c.setArgs L = (c1, .error e)) :
    c.collect L = (c1, .error (c.name ++ ": bad positional args: " ++ e)) := by
  unfold Cmd.collect; rw [h]

/-! ## Positional binding -/

/-- C5: for a node whose positional spec requires `N > 0` tokens and every
left-over list `L`, positional binding succeeds if and only if `L` has exactly
`N` elements; on success the node is bound to exactly `L` and the remainder is
empty; otherwise the binding fails, the node is unchanged, and `parse` reports
the failure as a bad-positional-args error under the node's name. -/
theorem setArgs_fixed_count (c : Cmd) (opt : ArgsOpts) (L : List String)
    (hspec : c.argsOpts = some opt) (hN : 0 < opt.N) :
    ((∃ r, (c.setArgs L).2 = .ok r) ↔ (L.length : Int) = opt.N) ∧
    ((L.length : Int) = opt.N →
      c.setArgs L = (.mk c.cfg c.argsOpts c.flagSet (some L) c.sub, .ok []) ∧
      c.collect L = (.mk c.cfg c.argsOpts c.flagSet (some L) c.sub, .ok [])) ∧
    ((L.length : Int) ≠ opt.N →
      c.setArgs L =
        (c, .error ("required " ++ fmtInt opt.N ++ " positional args, got " ++ fmtSlice L)) ∧
      c.collect L = (c, .error (c.name ++ ": bad positional args: " ++
        ("required " ++ fmtInt opt.N ++ " positional args, got " ++ fmtSlice L)))) := by
  have hyes : (L.length : Int) = opt.N →
      c.setArgs L = (.mk c.cfg c.argsOpts c.flagSet (some L) c.sub, .ok []) := by
    intro h
    rw [Cmd.setArgs_some c opt L hspec, if_neg]
    intro hc; exact hc.2 h
  have hno : (L.length : Int) ≠ opt.N → c.setArgs L =
      (c, .error ("required " ++ fmtInt opt.N ++ " positional args, got " ++ fmtSlice L)) := by
    intro h
    rw [Cmd.setArgs_some c opt L hspec, if_pos ⟨hN, h⟩]
  refine ⟨⟨?_, ?_⟩, ?_, ?_⟩
  · rintro ⟨r, hr⟩
    by_contra hne
    rw [hno hne] at hr
    cases hr
  · intro h
    exact ⟨[], by rw [hyes h]⟩
  · intro h
    exact ⟨hyes h, Cmd.collect_of_ok _ _ _ _ (hyes h)⟩
  · intro h
    exact ⟨hno h, Cmd.collect_of_error _ _ _ _ (hno h)⟩

/-- Witness of C5 at the root `mv` with `N = 2` and the left-over tokens
`a b`. -/
theorem setArgs_fixed_count_witness :
    exMove.argsOpts = some { N := 2, Usage := "[source] [destination]", Details := "" } ∧
    (0 : Int) < 2 ∧
    (exMove.setArgs ["a", "b"]).2 = .ok [] ∧
    (exMove.setArgs ["a", "b"]).1.args = some ["a", "b"] ∧
    (exMove.collect ["a", "b", "c"]).2 =
      .error "mv: bad positional args: required 2 positional args, got [a b c]" :=
  have h := setArgs_fixed_count exMove
    { N := 2, Usage := "[source] [destination]", Details := "" } ["a", "b"] rfl (by decide)
  ⟨rfl, by decide, by rw [(h.2.1 rfl).1], by rw [(h.2.1 rfl).1]; rfl, by decide⟩

/-- C6: for a node without positional spec and every left-over list `L`,
positional binding fails if and only if `L` is not empty, and `parse` reports
the failure as a bad-positional-args error under the node's name; for the empty
list it succeeds and leaves the node, and so its binding, unchanged. -/
theorem setArgs_no_spec (c : Cmd) (L : List String) (hspec : c.argsOpts = none) :
    ((∃ e, (c.setArgs L).2 = .error e) ↔ L ≠ []) ∧
    (L ≠ [] →
      c.setArgs L = (c, .error ("positional args not expected, got " ++ fmtSlice L)) ∧
      c.collect L = (c, .error (c.name ++ ": bad positional args: " ++
        ("positional args not expected, got " ++ fmtSlice L)))) ∧
    (L = [] → c.setArgs L = (c, .ok []) ∧ c.collect L = (c, .ok [])) := by
  have hno : L ≠ [] → c.setArgs L =
      (c, .error ("positional args not expected, got " ++ fmtSlice L)) := by
    intro h
    rw [Cmd.setArgs_none c L hspec, if_pos (List.length_pos.2 h)]
  have hyes : L = [] → c.setArgs L = (c, .ok []) := by
    intro h
    subst h
    rw [Cmd.setArgs_none c [] hspec]; rfl
  refine ⟨⟨?_, ?_⟩, ?_, ?_⟩
  · rintro ⟨e, he⟩ hL
    rw [hyes hL] at he
    cases he
  · intro h
    exact ⟨_, by rw [hno h]⟩
  · intro h
    exact ⟨hno h, Cmd.collect_of_error _ _ _ _ (hno h)⟩
  · intro h
    exact ⟨hyes h, Cmd.collect_of_ok _ _ _ _ (hyes h)⟩

/-- Witness of C6 at the root `cmd` without spec. -/
theorem setArgs_no_spec_witness :
    exPlain.argsOpts = none ∧
    exPlain.setArgs [] = (exPlain, .ok []) ∧
    (exPlain.collect ["x"]).2 =
      .error "cmd: bad positional args: positional args not expected, got [x]" :=
  have h := setArgs_no_spec exPlain [] rfl
  ⟨rfl, (h.2.2 rfl).1, by decide⟩

/-- C7: for a node whose positional spec has `N ≤ 0` and every left-over list
`L`, of any length, positional binding succeeds, binds the node to exactly `L`
and returns an empty remainder; the spec that `Args(nil)` installs on a node
without spec is such a spec. -/
theorem setArgs_any_count (c : Cmd) (opt : ArgsOpts) (L : List String)
    (hspec : c.argsOpts = some opt) (hN : opt.N ≤ 0) :
    c.setArgs L = (.mk c.cfg c.argsOpts c.flagSet (some L) c.sub, .ok []) ∧
    c.collect L = (.mk c.cfg c.argsOpts c.flagSet (some L) c.sub, .ok []) ∧
    (c.setArgs L).1.args = some L ∧
    (∀ c0 : Cmd, c0.argsOpts = none →
      (c0.Args none).2 = .ok c0.args ∧
      ((c0.Args none).1.setArgs L).2 = .ok [] ∧
      ((c0.Args none).1.setArgs L).1.args = some L) := by
  have hyes : ∀ (c : Cmd) (opt : ArgsOpts), c.argsOpts = some opt → opt.N ≤ 0 →
      c.setArgs L = (.mk c.cfg c.argsOpts c.flagSet (some L) c.sub, .ok []) := by
    intro c opt hspec hN
    rw [Cmd.setArgs_some c opt L hspec, if_neg]
    intro hc; omega
  refine ⟨hyes c opt hspec hN, Cmd.collect_of_ok _ _ _ _ (hyes c opt hspec hN), ?_, ?_⟩
  · rw [hyes c opt hspec hN]; rfl
  · intro c0 h0
    have h1 : (c0.Args none).1.argsOpts = some { N := 0, Usage := "", Details := "" } := by
      unfold Cmd.Args; rw [h0]; rfl
    refine ⟨by unfold Cmd.Args; rw [h0], ?_, ?_⟩
    · rw [hyes _ _ h1 (le_refl _)]
    · rw [hyes _ _ h1 (le_refl _)]; rfl

/-- Witness of C7 at the root `cmd` after `Args(nil)`, with no token and with
three tokens. -/
theorem setArgs_any_count_witness :
    exFree.argsOpts = some { N := 0, Usage := "", Details := "" } ∧
    (0 : Int) ≤ 0 ∧
    (exFree.setArgs ["x", "y", "z"]).2 = .ok [] ∧
    (exFree.setArgs ["x", "y", "z"]).1.args = some ["x", "y", "z"] ∧
    (exFree.setArgs []).1.args = some [] :=
  have h := setArgs_any_count exFree { N := 0, Usage := "", Details := "" } ["x", "y", "z"]
    rfl (le_refl _)
  ⟨rfl, le_refl _, by rw [h.1], h.2.2.1, rfl⟩

theorem Cmd.setArgs_cfg (c : Cmd) (L : List String) : (c.setArgs L).1.cfg = c.cfg := by
  unfold Cmd.setArgs
  split <;> split <;> rfl

theorem Cmd.collect_fst (c : Cmd) (L : List String) : (c.collect L).1 = (c.setArgs L).1 := by
  unfold Cmd.collect
  split
  · next h => rw [h]
  · rfl

theorem Cmd.collect_cfg (c : Cmd) (L : List String) : (c.collect L).1.cfg = c.cfg := by
  rw [Cmd.collect_fst, Cmd.setArgs_cfg]

theorem Cmd.parse_cfg (c : Cmd) (args : List String) : (c.parse args).1.cfg = c.cfg := by
  cases c with
  | mk cfg o f a sub =>
    rw [Cmd.parse.eq_def]
    simp only []
    split
    · rfl
    · split
      · rfl
      · rfl
      · rfl
      · rw [Cmd.collect_cfg]
      · split <;> first | rfl | (rw [Cmd.collect_cfg]; done) | (rw [Cmd.collect_cfg]; rfl)

/-! ## Error handling -/

/-- C9: once validation has passed, `Parse` returns nil exactly when the
internal `parse` produced no error; when `parse` produced the error `e`,
`Parse` returns `e` unchanged under `ContinueOnError`, ends the process with
status 2 under `ExitOnError`, and panics with `e` under `PanicOnError`. -/
theorem Parse_handles_error (c : Cmd) (args : List String) (hvalid : c.validate = none) :
    ((c.Parse args).2 = .ok () ↔ ∃ rest, (c.parse args).2 = .ok rest) ∧
    (∀ e, (c.parse args).2 = .error e →
      (c.errorHandling = .ContinueOnError → (c.Parse args).2 = .error e) ∧
      (c.errorHandling = .ExitOnError → (c.Parse args).2 = .exit 2) ∧
      (c.errorHandling = .PanicOnError → (c.Parse args).2 = .panic (.error e))) := by
  have hcfg := Cmd.parse_cfg c args
  unfold Cmd.Parse
  rw [hvalid]
  simp only []
  rcases hp : c.parse args with ⟨c1, r⟩
  rw [hp] at hcfg
  have heh : c1.errorHandling = c.errorHandling := by
    unfold Cmd.errorHandling; rw [hcfg]
  cases r with
  | ok rest =>
    simp [Cmd.handleError]
  | error e =>
    simp only [Cmd.handleError, heh]
    cases hh : c.errorHandling <;> simp
  | panic v => simp
  | exit n => simp

/-- Witness of C9: the root `mv`, which requires two positional arguments and
returns its errors, parsed on three. -/
theorem Parse_handles_error_witness :
    exMove.validate = none ∧
    (exMove.Parse ["mv", "a", "b", "c"]).2 =
      .error "mv: bad positional args: required 2 positional args, got [a b c]" :=
  ⟨rfl, ((Parse_handles_error exMove ["mv", "a", "b", "c"] rfl).2 _ (by decide)).1 rfl⟩

/-! ## Registering sub commands -/

theorem subAt_subSet (sub : List (String × Cmd)) (k : String) (v : Cmd) (k2 : String) :
    subAt (subSet sub k v) k2 = if k2 = k then some v else subAt sub k2 := by
  induction sub with
  | nil =>
    by_cases h : k2 = k
    · simp [subSet, subAt, h]
    · simp [subSet, subAt, h, Ne.symm h]
  | cons hd tl ih =>
    rcases hd with ⟨k1, c1⟩
    by_cases h1 : k1 = k
    · by_cases h : k2 = k
      · simp [subSet, subAt, h1, h]
      · simp [subSet, subAt, h1, h, Ne.symm h]
    · by_cases h : k2 = k
      · subst h
        simp [subSet, subAt, h1, ih]
      · by_cases h2 : k1 = k2
        · subst h2
          simp [subSet, subAt, h1]
        · simp [subSet, subAt, h1, h2, ih, h]

theorem subSet_of_absent (sub : List (String × Cmd)) (k : String) (v : Cmd)
    (h : subAt sub k = none) : subSet sub k v = sub ++ [(k, v)] := by
  induction sub with
  | nil => rfl
  | cons hd tl ih =>
    rcases hd with ⟨k1, c1⟩
    by_cases h1 : k1 = k
    · simp [subAt, h1] at h
    · simp only [subAt, h1, if_false] at h
      simp [subSet, h1, ih h]

/-- C10: `SubCommand` with a name that is already registered on the node
panics and leaves the node, and so its child mapping, unchanged, whatever
other children there are; with a name that is not registered it returns the
new sub command, and afterwards the mapping holds the previous children and
the new one under that name. -/
theorem SubCommand_registers (c : Cmd) (name synopsis : String)
    (options : List (subConfig → subConfig)) :
    (subAt c.sub name ≠ none →
      c.SubCommand name synopsis options = (c, .panic (.subExists name))) ∧
    (subAt c.sub name = none →
      ∃ new, (c.SubCommand name synopsis options).2 = .ok new ∧
        (c.SubCommand name synopsis options).1.sub = c.sub ++ [(name, new)] ∧
        ∀ k, subAt (c.SubCommand name synopsis options).1.sub k =
          if k = name then some new else subAt c.sub k) := by
  constructor
  · intro h
    unfold Cmd.SubCommand
    cases hs : subAt c.sub name with
    | none => exact absurd hs h
    | some old => rfl
  · intro h
    unfold Cmd.SubCommand
    rw [h]
    refine ⟨_, rfl, ?_, ?_⟩
    · exact subSet_of_absent _ _ _ h
    · intro k
      exact subAt_subSet _ _ _ _

/-- Witness of C10 at the root `cmd` with the children `sub1` and `sub2`:
`sub1` cannot be registered again, `sub3` can. -/
theorem SubCommand_registers_witness :
    subAt exTwoSubs.sub "sub1" ≠ none ∧ subAt exTwoSubs.sub "sub3" = none ∧
    exTwoSubs.SubCommand "sub1" "again" [] = (exTwoSubs, .panic (.subExists "sub1")) ∧
    (exTwoSubs.SubCommand "sub3" "third" []).1.sub.map Prod.fst = ["sub1", "sub2", "sub3"] :=
  have h1 : subAt exTwoSubs.sub "sub1" ≠ none := Option.ne_none_iff_isSome.2 (by decide)
  ⟨h1, Option.not_isSome_iff_eq_none.1 (by decide),
    (SubCommand_registers exTwoSubs "sub1" "again" []).1 h1, by decide⟩

/-! ## Induction over trees, and the map of sub commands -/

theorem Cmd.induct {P : Cmd → Prop}
    (h : ∀ cfg o f a sub, (∀ k c, (k, c) ∈ sub → P c) → P (.mk cfg o f a sub)) : ∀ c, P c := by
  intro c
  refine Cmd.rec (motive_1 := P) (motive_2 := fun l => ∀ k c, (k, c) ∈ l → P c)
    (motive_3 := fun p => P p.2) ?_ ?_ ?_ ?_ c
  · intro cfg o f a sub ih; exact h cfg o f a sub ih
  · intro k c hm; cases hm
  · intro hd tl ih1 ih2 k c hm
    rcases List.mem_cons.1 hm with h1 | h1
    · subst h1; exact ih1
    · exact ih2 k c h1
  · intro k c ih; exact ih

theorem subAt_mem {sub : List (String × Cmd)} {k : String} {c : Cmd}
    (h : subAt sub k = some c) : (k, c) ∈ sub := by
  induction sub with
  | nil => simp [subAt] at h
  | cons hd tl ih =>
    rcases hd with ⟨k1, c1⟩
    by_cases h1 : k1 = k
    · simp only [subAt, h1, if_true, Option.some.injEq] at h
      subst h1; subst h
      exact List.mem_cons_self _ _
    · simp only [subAt, h1, if_false] at h
      exact List.mem_cons_of_mem _ (ih h)

theorem parseSub_eq (sub : List (String × Cmd)) (k : String) (args : List String) :
    parseSub sub k args =
      match subAt sub k with
      | none => none
      | some c => some (subSet sub k (c.parse args).1, (c.parse args).2) := by
  induction sub with
  | nil => simp [parseSub, subAt]
  | cons hd tl ih =>
    rcases hd with ⟨k1, c1⟩
    by_cases h1 : k1 = k
    · simp [parseSub, subAt, subSet, h1]
    · rw [parseSub, if_neg h1, ih]
      simp only [subAt, if_neg h1]
      cases subAt tl k with
      | none => rfl
      | some c => simp [subSet, h1]

theorem visitsSub_eq (sub : List (String × Cmd)) (k : String) (args : List String) :
    visitsSub sub k args =
      match subAt sub k with
      | none => none
      | some c => some ((c.visits args).map (fun v => { v with path := k :: v.path })) := by
  induction sub with
  | nil => simp [visitsSub, subAt]
  | cons hd tl ih =>
    rcases hd with ⟨k1, c1⟩
    by_cases h1 : k1 = k
    · simp [visitsSub, subAt, h1]
    · rw [visitsSub, if_neg h1, ih]
      simp only [subAt, if_neg h1]

theorem validateSubs_none (sub : List (String × Cmd)) (p : String) :
    validateSubs sub p = none ↔ ∀ k c, (k, c) ∈ sub → c.validatePositional p = none := by
  induction sub with
  | nil => simp [validateSubs]
  | cons hd tl ih =>
    rcases hd with ⟨k1, c1⟩
    rw [validateSubs]
    cases h : c1.validatePositional p with
    | some v =>
      simp only [false_iff, reduceCtorEq]
      intro hall
      have := hall k1 c1 (List.mem_cons_self _ _)
      rw [h] at this
      cases this
    | none =>
      simp only []
      rw [ih]
      constructor
      · intro hall k c hm
        rcases List.mem_cons.1 hm with h2 | h2
        · cases h2; exact h
        · exact hall k c h2
      · intro hall k c hm
        exact hall k c (List.mem_cons_of_mem _ hm)

/-! ## The cases of `parse` -/

theorem Cmd.parse_flags_error (cfg : config) (o : Option ArgsOpts) (f : FlagSet) (a : Handle)
    (sub : List (String × Cmd)) (a0 : String) (tl : List String) (e : String)
    (hf : f.Parse tl = .error e) :
    (Cmd.mk cfg o f a sub).parse (a0 :: tl) =
      (.mk cfg o f a sub, .error (cfg.name ++ ": bad flags: " ++ e)) := by
  rw [Cmd.parse, hf]

theorem Cmd.parse_flags_panic (cfg : config) (o : Option ArgsOpts) (f : FlagSet) (a : Handle)
    (sub : List (String × Cmd)) (a0 : String) (tl : List String) (v : Fatal)
    (hf : f.Parse tl = .panic v) :
    (Cmd.mk cfg o f a sub).parse (a0 :: tl) = (.mk cfg o f a sub, .panic v) := by
  rw [Cmd.parse, hf]

theorem Cmd.parse_flags_exit (cfg : config) (o : Option ArgsOpts) (f : FlagSet) (a : Handle)
    (sub : List (String × Cmd)) (a0 : String) (tl : List String) (n : Nat)
    (hf : f.Parse tl = .exit n) :
    (Cmd.mk cfg o f a sub).parse (a0 :: tl) = (.mk cfg o f a sub, .exit n) := by
  rw [Cmd.parse, hf]

theorem Cmd.parse_nil_rest (cfg : config) (o : Option ArgsOpts) (f : FlagSet) (a : Handle)
    (sub : List (String × Cmd)) (a0 : String) (tl : List String)
    (hf : f.Parse tl = .ok []) :
    (Cmd.mk cfg o f a sub).parse (a0 :: tl) = (Cmd.mk cfg o f a sub).collect [] := by
  rw [Cmd.parse, hf]

theorem Cmd.parse_no_sub (cfg : config) (o : Option ArgsOpts) (f : FlagSet) (a : Handle)
    (sub : List (String × Cmd)) (a0 : String) (tl : List String) (t : String)
    (rest : List String) (hf : f.Parse tl = .ok (t :: rest)) (hs : subAt sub t = none) :
    (Cmd.mk cfg o f a sub).parse (a0 :: tl) = (Cmd.mk cfg o f a sub).collect (t :: rest) := by
  rw [Cmd.parse, hf]
  simp only []
  rw [parseSub_eq, hs]

theorem Cmd.parse_sub (cfg : config) (o : Option ArgsOpts) (f : FlagSet) (a : Handle)
    (sub : List (String × Cmd)) (a0 : String) (tl : List String) (t : String)
    (rest : List String) (d : Cmd) (hf : f.Parse tl = .ok (t :: rest))
    (hs : subAt sub t = some d) :
    (Cmd.mk cfg o f a sub).parse (a0 :: tl) =
      match (d.parse (t :: rest)).2 with
      | .ok r => (Cmd.mk cfg o f a (subSet sub t (d.parse (t :: rest)).1)).collect r
      | .error e => (.mk cfg o f a (subSet sub t (d.parse (t :: rest)).1),
          .error (cfg.name ++ " > " ++ e))
      | .panic v => (.mk cfg o f a (subSet sub t (d.parse (t :: rest)).1), .panic v)
      | .exit n => (.mk cfg o f a (subSet sub t (d.parse (t :: rest)).1), .exit n) := by
  rw [Cmd.parse, hf]
  simp only []
  rw [parseSub_eq, hs]
  simp only []
  cases (d.parse (t :: rest)).2 <;> rfl

theorem Cmd.visits_of_flags (cfg : config) (o : Option ArgsOpts) (f : FlagSet) (a : Handle)
    (sub : List (String × Cmd)) (args : List String)
    (hf : ∀ r, f.Parse args.tail ≠ .ok r) :
    (Cmd.mk cfg o f a sub).visits args = [⟨[], .mk cfg o f a sub, args, none⟩] := by
  rw [Cmd.visits]
  split
  · next h => exact absurd h (hf _)
  · next h => exact absurd h (hf _)
  · rfl

theorem Cmd.visits_nil_rest (cfg : config) (o : Option ArgsOpts) (f : FlagSet) (a : Handle)
    (sub : List (String × Cmd)) (args : List String) (hf : f.Parse args.tail = .ok []) :
    (Cmd.mk cfg o f a sub).visits args = [⟨[], .mk cfg o f a sub, args, some []⟩] := by
  rw [Cmd.visits, hf]

theorem Cmd.visits_no_sub (cfg : config) (o : Option ArgsOpts) (f : FlagSet) (a : Handle)
    (sub : List (String × Cmd)) (args : List String) (t : String) (rest : List String)
    (hf : f.Parse args.tail = .ok (t :: rest)) (hs : subAt sub t = none) :
    (Cmd.mk cfg o f a sub).visits args =
      [⟨[], .mk cfg o f a sub, args, some (t :: rest)⟩] := by
  rw [Cmd.visits, hf]
  simp only []
  rw [visitsSub_eq, hs]

theorem Cmd.visits_sub (cfg : config) (o : Option ArgsOpts) (f : FlagSet) (a : Handle)
    (sub : List (String × Cmd)) (args : List String) (t : String) (rest : List String)
    (d : Cmd) (hf : f.Parse args.tail = .ok (t :: rest)) (hs : subAt sub t = some d) :
    (Cmd.mk cfg o f a sub).visits args =
      ⟨[], .mk cfg o f a sub, args, some []⟩ ::
        (d.visits (t :: rest)).map (fun v => { v with path := t :: v.path }) := by
  rw [Cmd.visits, hf]
  simp only []
  rw [visitsSub_eq, hs]

/-! ## Validation -/

theorem Cmd.Descends.of_sub {c m d : Cmd} {k : String} (hm : (k, m) ∈ c.sub)
    (h : m.Within d) : c.Descends d := by
  rcases h with h | h
  · subst h; exact .sub hm
  · exact .step hm h

/-- A tree none of whose nodes declares a positional spec passes
`validatePositional` whatever name it is given. -/
theorem validatePositional_of_none (c : Cmd) :
    ∀ p, (∀ n, c.Within n → n.argsOpts = none) → c.validatePositional p = none := by
  induction c using Cmd.induct with
  | h cfg o f a sub ih =>
    intro p hall
    have ho : o = none := hall _ (Or.inl rfl)
    subst ho
    rw [Cmd.validatePositional]
    rw [validateSubs_none]
    intro k c hm
    apply ih k c hm
    intro n hn
    exact hall n (Or.inr (Cmd.Descends.of_sub hm hn))

/-- A tree without a node and a strict descendant that both declare a
positional spec passes validation. -/
theorem validate_of_no_conflict (c : Cmd) : ¬ c.Conflict → c.validate = none := by
  unfold Cmd.validate
  induction c using Cmd.induct with
  | h cfg o f a sub ih =>
    intro hc
    cases o with
    | some opt =>
      rw [Cmd.validatePositional]
      simp only [ne_eq, not_true_eq_false, if_false]
      rw [validateSubs_none]
      intro k c hm
      apply validatePositional_of_none
      intro n hn
      by_contra hne
      exact hc ⟨_, n, Or.inl rfl, Cmd.Descends.of_sub hm hn, by simp [Cmd.argsOpts], hne⟩
    | none =>
      rw [Cmd.validatePositional]
      rw [validateSubs_none]
      intro k c hm
      apply ih k c hm
      rintro ⟨n, d, hn, hd, h1, h2⟩
      exact hc ⟨n, d, Or.inr (Cmd.Descends.of_sub hm hn), hd, h1, h2⟩

/-- C3, at the failing input: the root named `""` by `OptName("")` and its
sub command `a` both declare a positional spec, yet `validate` returns
without panic, and `Parse` goes on to bind both. -/
theorem validate_accepts_unnamed_root :
    exUnnamed.Conflict ∧ exUnnamed.name = "" ∧ exUnnamed.validate = none ∧
    (exUnnamed.Parse ["prog", "a", "x"]).2 = .ok () ∧
    (exUnnamed.Parse ["prog", "a", "x"]).1.args = some [] ∧
    (nodeAt ["a"] (exUnnamed.Parse ["prog", "a", "x"]).1).map Cmd.args = some (some ["x"]) := by
  refine ⟨?_, rfl, rfl, rfl, rfl, rfl⟩
  have hsub : subAt exUnnamed.sub "a" ≠ none := Option.ne_none_iff_isSome.2 (by decide)
  cases hd : subAt exUnnamed.sub "a" with
  | none => exact absurd hd hsub
  | some d =>
    refine ⟨exUnnamed, d, Or.inl rfl, .sub (subAt_mem hd), ?_, ?_⟩
    · exact Option.ne_none_iff_isSome.2 (by decide)
    · have h2 : ((subAt exUnnamed.sub "a").bind Cmd.argsOpts).isSome = true := by decide
      rw [hd] at h2
      exact Option.ne_none_iff_isSome.2 h2

/-! ## The handle returned by `Args` -/

/-- C2, at the failing input: `Args` on a command made by `newCmd` returns the
nil pointer.  A successful `Parse` of `cmd a b` points `c.args` to `[a b]`,
while the pointer that `Args` returned stays nil: reading through it panics
and does not give the tokens bound to the command. -/
theorem Args_returns_nil_handle :
    (∀ (cfg : config) (opts : Option ArgsOpts), ((newCmd cfg).Args opts).2 = .ok none) ∧
    (exPlain.Args none).2 = .ok none ∧
    ((exPlain.Args none).1.Parse ["cmd", "a", "b"]).2 = .ok () ∧
    Handle.read ((exPlain.Args none).1.Parse ["cmd", "a", "b"]).1.args = .ok ["a", "b"] ∧
    Handle.read (none : Handle) = .panic .nilDereference := by
  exact ⟨fun cfg opts => rfl, rfl, rfl, rfl, rfl⟩

/-! ## Flags are scoped to their command -/

/-- C4: for the root `cmd` with the boolean flag `-flag` and the sub command
`sub`, under every error handling, `cmd -flag sub` parses without error, and
`cmd sub -flag` fails in the flag parsing of `sub`, which receives `sub -flag`:
the error `cmd > cmd sub: bad flags: flag provided but not defined: -flag` is
returned under `ContinueOnError`, the process ends with status 2 under
`ExitOnError`, and the flag error is the panic value under `PanicOnError`. -/
theorem flags_are_scoped (eh : ErrorHandling) :
    ((exScoped eh).Parse ["cmd", "-flag", "sub"]).2 = .ok () ∧
    ((exScoped eh).Parse ["cmd", "sub", "-flag"]).2 =
      (match eh with
        | .ContinueOnError =>
          .error "cmd > cmd sub: bad flags: flag provided but not defined: -flag"
        | .ExitOnError => .exit 2
        | .PanicOnError => .panic (.error "flag provided but not defined: -flag")) ∧
    ((exScoped eh).visits ["cmd", "sub", "-flag"]).map (fun v => (v.path, v.args, v.left)) =
      [([], ["cmd", "sub", "-flag"], some []), (["sub"], ["sub", "-flag"], none)] ∧
    (exScoped eh).flagSet.Parse ["-flag"] = .ok [] := by
  cases eh <;> exact ⟨by decide, by decide, by decide, by decide⟩

/-! ## Positional binding and the arity rule -/

theorem Cmd.mk_argsOpts (cfg : config) (o : Option ArgsOpts) (f : FlagSet) (a : Handle)
    (sub : List (String × Cmd)) : (Cmd.mk cfg o f a sub).argsOpts = o := rfl

theorem Cmd.collect_of_accepts (c : Cmd) (L : List String) (h : Accepts c.argsOpts L) :
    (c.collect L).2 = .ok [] ∧ (c.collect L).1.sub = c.sub ∧
    (c.collect L).1.cfg = c.cfg ∧ (c.collect L).1.argsOpts = c.argsOpts ∧
    (c.argsOpts ≠ none → (c.collect L).1.args = some L) := by
  cases ho : c.argsOpts with
  | none =>
    rw [ho] at h
    have hL : L = [] := h
    subst hL
    have hs : c.setArgs [] = (c, .ok []) := by
      rw [Cmd.setArgs_none c [] ho]; rfl
    rw [Cmd.collect_of_ok _ _ _ _ hs]
    exact ⟨rfl, rfl, rfl, ho, fun hc => absurd rfl hc⟩
  | some opt =>
    rw [ho] at h
    have hs : c.setArgs L = (.mk c.cfg c.argsOpts c.flagSet (some L) c.sub, .ok []) := by
      rw [Cmd.setArgs_some c opt L ho, if_neg]
      intro hc
      exact hc.2 (h hc.1)
    rw [Cmd.collect_of_ok _ _ _ _ hs]
    exact ⟨rfl, rfl, rfl, ho, fun _ => rfl⟩

theorem Cmd.collect_of_not_accepts (c : Cmd) (L : List String) (h : ¬ Accepts c.argsOpts L) :
    ∃ cause, (c.setArgs L).2 = .error cause ∧
      c.collect L = (c, .error (c.name ++ ": bad positional args: " ++ cause)) := by
  cases ho : c.argsOpts with
  | none =>
    rw [ho] at h
    have hL : L ≠ [] := h
    have hs : c.setArgs L =
        (c, .error ("positional args not expected, got " ++ fmtSlice L)) := by
      rw [Cmd.setArgs_none c L ho, if_pos (List.length_pos.2 hL)]
    exact ⟨_, by rw [hs], Cmd.collect_of_error _ _ _ _ hs⟩
  | some opt =>
    rw [ho] at h
    have hN : 0 < opt.N ∧ (L.length : Int) ≠ opt.N := by
      by_contra hc
      apply h
      intro h0
      by_contra h1
      exact hc ⟨h0, h1⟩
    have hs : c.setArgs L = (c, .error
        ("required " ++ fmtInt opt.N ++ " positional args, got " ++ fmtSlice L)) := by
      rw [Cmd.setArgs_some c opt L ho, if_pos hN]
    exact ⟨_, by rw [hs], Cmd.collect_of_error _ _ _ _ hs⟩

theorem Cmd.accepts_of_collect_ok (c : Cmd) (L r : List String)
    (h : (c.collect L).2 = .ok r) : r = [] ∧ Accepts c.argsOpts L := by
  by_cases ha : Accepts c.argsOpts L
  · have h1 := (Cmd.collect_of_accepts c L ha).1
    rw [h1] at h
    cases h
    exact ⟨rfl, ha⟩
  · obtain ⟨cause, _, h2⟩ := Cmd.collect_of_not_accepts c L ha
    rw [h2] at h
    cases h

theorem Visit.passes_push (v : Visit) (k : String) :
    Visit.Passes { v with path := k :: v.path } ↔ v.Passes := Iff.rfl

/-! ## What a parse without error does -/

/-- When every visit passes, `parse` returns without error and with an empty
remainder, and every visited command that declares a spec is afterwards bound
to the tokens left over at it. -/
theorem parse_of_passes (c : Cmd) :
    ∀ args : List String, args ≠ [] → (∀ v ∈ c.visits args, v.Passes) →
      (c.parse args).2 = .ok [] ∧
      ∀ v ∈ c.visits args, ∀ L, v.left = some L →
        ∃ n, nodeAt v.path (c.parse args).1 = some n ∧ n.cfg = v.cmd.cfg ∧
          n.argsOpts = v.cmd.argsOpts ∧ (v.cmd.argsOpts ≠ none → n.args = some L) := by
  induction c using Cmd.induct with
  | h cfg o f a sub ih =>
    intro args hne hall
    cases args with
    | nil => exact absurd rfl hne
    | cons a0 tl =>
      cases hf : f.Parse tl with
      | error e =>
        have hv := Cmd.visits_of_flags cfg o f a sub (a0 :: tl)
          (by intro r hr; rw [List.tail_cons, hf] at hr; cases hr)
        rw [hv] at hall
        obtain ⟨L, hL, _⟩ := hall _ (List.mem_singleton.2 rfl)
        cases hL
      | panic pv =>
        have hv := Cmd.visits_of_flags cfg o f a sub (a0 :: tl)
          (by intro r hr; rw [List.tail_cons, hf] at hr; cases hr)
        rw [hv] at hall
        obtain ⟨L, hL, _⟩ := hall _ (List.mem_singleton.2 rfl)
        cases hL
      | exit n =>
        have hv := Cmd.visits_of_flags cfg o f a sub (a0 :: tl)
          (by intro r hr; rw [List.tail_cons, hf] at hr; cases hr)
        rw [hv] at hall
        obtain ⟨L, hL, _⟩ := hall _ (List.mem_singleton.2 rfl)
        cases hL
      | ok rest =>
        have leaf : ∀ L, (Cmd.mk cfg o f a sub).visits (a0 :: tl) =
              [⟨[], .mk cfg o f a sub, a0 :: tl, some L⟩] →
            (Cmd.mk cfg o f a sub).parse (a0 :: tl) = (Cmd.mk cfg o f a sub).collect L →
            ((Cmd.mk cfg o f a sub).parse (a0 :: tl)).2 = .ok [] ∧
            ∀ v ∈ (Cmd.mk cfg o f a sub).visits (a0 :: tl), ∀ L, v.left = some L →
              ∃ n, nodeAt v.path ((Cmd.mk cfg o f a sub).parse (a0 :: tl)).1 = some n ∧
                n.cfg = v.cmd.cfg ∧ n.argsOpts = v.cmd.argsOpts ∧
                (v.cmd.argsOpts ≠ none → n.args = some L) := by
          intro L hv hp
          rw [hv] at hall
          obtain ⟨L1, hL1, hacc⟩ := hall _ (List.mem_singleton.2 rfl)
          cases hL1
          have hc := Cmd.collect_of_accepts _ _ hacc
          rw [hv, hp]
          refine ⟨hc.1, ?_⟩
          intro v hvm L2 hL2
          rw [List.mem_singleton] at hvm
          subst hvm
          cases hL2
          exact ⟨_, rfl, hc.2.2.1, hc.2.2.2.1, hc.2.2.2.2⟩
        cases rest with
        | nil =>
          exact leaf [] (Cmd.visits_nil_rest cfg o f a sub (a0 :: tl) hf)
            (Cmd.parse_nil_rest cfg o f a sub a0 tl hf)
        | cons t rest =>
          cases hs : subAt sub t with
          | none =>
            exact leaf (t :: rest) (Cmd.visits_no_sub cfg o f a sub (a0 :: tl) t rest hf hs)
              (Cmd.parse_no_sub cfg o f a sub a0 tl t rest hf hs)
          | some d =>
            have hv := Cmd.visits_sub cfg o f a sub (a0 :: tl) t rest d hf hs
            have hp := Cmd.parse_sub cfg o f a sub a0 tl t rest d hf hs
            rw [hv] at hall
            have hd := ih t d (subAt_mem hs) (t :: rest) (List.cons_ne_nil _ _)
              (by
                intro v hvm
                exact (Visit.passes_push v t).1
                  (hall _ (List.mem_cons_of_mem _ (List.mem_map_of_mem _ hvm))))
            obtain ⟨L1, hL1, hacc⟩ := hall _ (List.mem_cons_self _ _)
            cases hL1
            rw [hd.1] at hp
            simp only [] at hp
            have hc := Cmd.collect_of_accepts
              (Cmd.mk cfg o f a (subSet sub t (d.parse (t :: rest)).1)) [] hacc
            rw [hv, hp]
            refine ⟨hc.1, ?_⟩
            intro v hvm L2 hL2
            rcases List.mem_cons.1 hvm with h1 | h1
            · subst h1
              cases hL2
              exact ⟨_, rfl, hc.2.2.1, hc.2.2.2.1, hc.2.2.2.2⟩
            · obtain ⟨w, hw, rfl⟩ := List.mem_map.1 h1
              obtain ⟨n, hn1, hn2⟩ := hd.2 w hw L2 hL2
              refine ⟨n, ?_, hn2⟩
              show nodeAt (t :: w.path) _ = some n
              rw [nodeAt, hc.2.1]
              show (match subAt (subSet sub t (d.parse (t :: rest)).1) t with
                | none => none
                | some d => nodeAt w.path d) = some n
              rw [subAt_subSet, if_pos rfl]
              exact hn1

/-- C1: for every tree in which no node and strict descendant both declare a
positional spec, and every non-empty argument vector such that at each visited
node the flags parse and the tokens left over there satisfy the node's arity,
`Parse` returns no error, and every visited node that declared a spec is, in
the tree after the parse, bound to exactly the tokens left over at it. -/
theorem Parse_binds_leftovers (c : Cmd) (args : List String)
    (hvalid : ¬ c.Conflict) (hargs : args ≠ [])
    (hpass : ∀ v ∈ c.visits args, v.Passes) :
    (c.Parse args).2 = .ok () ∧
    ∀ v ∈ c.visits args, ∀ L, v.left = some L → v.cmd.argsOpts ≠ none →
      ∃ n, nodeAt v.path (c.Parse args).1 = some n ∧ n.cfg = v.cmd.cfg ∧
        n.argsOpts = v.cmd.argsOpts ∧ n.args = some L := by
  have hp := parse_of_passes c args hargs hpass
  have hP : c.Parse args = ((c.parse args).1, .ok ()) := by
    unfold Cmd.Parse
    rw [validate_of_no_conflict c hvalid]
    simp only []
    rcases hq : c.parse args with ⟨c1, r⟩
    rw [hq] at hp
    have hr : r = .ok [] := hp.1
    subst hr
    rfl
  rw [hP]
  refine ⟨rfl, ?_⟩
  intro v hv L hL hspec
  obtain ⟨n, h1, h2, h3, h4⟩ := hp.2 v hv L hL
  exact ⟨n, h1, h2, h3, h4 hspec⟩

theorem Cmd.Descends.exists_sub {c d : Cmd} (h : c.Descends d) :
    ∃ k m, (k, m) ∈ c.sub ∧ m.Within d := by
  cases h with
  | sub hm => exact ⟨_, _, hm, Or.inl rfl⟩
  | step hm hd => exact ⟨_, _, hm, Or.inr hd⟩

theorem exCopy_sub : exCopy.sub = [("copy", exCopySub)] := rfl

theorem exCopy_no_conflict : ¬ exCopy.Conflict := by
  have leaf : ∀ d, ¬ exCopySub.Descends d := by
    intro d hd
    obtain ⟨k, m, hm, _⟩ := hd.exists_sub
    cases hm
  rintro ⟨n, d, hn, hd, h1, h2⟩
  rcases hn with hn | hn
  · subst hn
    exact h1 rfl
  · obtain ⟨k, m, hm, hw⟩ := hn.exists_sub
    rw [exCopy_sub, List.mem_singleton] at hm
    cases hm
    rcases hw with hw | hw
    · subst hw
      exact leaf d hd
    · exact leaf n hw

/-- Witness of C1: `cmd -v copy a b` on the root `cmd` with the flag `-v` and
the sub command `copy`, which requires two positional arguments. -/
theorem Parse_binds_leftovers_witness :
    ¬ exCopy.Conflict ∧ ["cmd", "-v", "copy", "a", "b"] ≠ [] ∧
    (∀ v ∈ exCopy.visits ["cmd", "-v", "copy", "a", "b"], v.Passes) ∧
    (exCopy.visits ["cmd", "-v", "copy", "a", "b"]).map (fun v => (v.path, v.left)) =
      [([], some []), (["copy"], some ["a", "b"])] ∧
    (exCopy.Parse ["cmd", "-v", "copy", "a", "b"]).2 = .ok () ∧
    (nodeAt ["copy"] (exCopy.Parse ["cmd", "-v", "copy", "a", "b"]).1).map Cmd.args =
      some (some ["a", "b"]) :=
  have h := Parse_binds_leftovers exCopy ["cmd", "-v", "copy", "a", "b"] exCopy_no_conflict
    (by decide) (by decide)
  ⟨exCopy_no_conflict, by decide, by decide, by decide, h.1, by decide⟩

/-- When `parse` returns without error, its remainder is empty and every
visit passes. -/
theorem passes_of_parse_ok (c : Cmd) :
    ∀ (args r : List String), args ≠ [] → (c.parse args).2 = .ok r →
      r = [] ∧ ∀ v ∈ c.visits args, v.Passes := by
  induction c using Cmd.induct with
  | h cfg o f a sub ih =>
    intro args r hne hok
    cases args with
    | nil => exact absurd rfl hne
    | cons a0 tl =>
      cases hf : f.Parse tl with
      | error e => rw [Cmd.parse_flags_error cfg o f a sub a0 tl e hf] at hok; cases hok
      | panic pv => rw [Cmd.parse_flags_panic cfg o f a sub a0 tl pv hf] at hok; cases hok
      | exit n => rw [Cmd.parse_flags_exit cfg o f a sub a0 tl n hf] at hok; cases hok
      | ok rest =>
        have leaf : ∀ L, (Cmd.mk cfg o f a sub).visits (a0 :: tl) =
              [⟨[], .mk cfg o f a sub, a0 :: tl, some L⟩] →
            (Cmd.mk cfg o f a sub).parse (a0 :: tl) = (Cmd.mk cfg o f a sub).collect L →
            r = [] ∧ ∀ v ∈ (Cmd.mk cfg o f a sub).visits (a0 :: tl), v.Passes := by
          intro L hv hp
          rw [hp] at hok
          have hc := Cmd.accepts_of_collect_ok _ _ _ hok
          refine ⟨hc.1, ?_⟩
          intro v hvm
          rw [hv, List.mem_singleton] at hvm
          subst hvm
          exact ⟨L, rfl, hc.2⟩
        cases rest with
        | nil =>
          exact leaf [] (Cmd.visits_nil_rest cfg o f a sub (a0 :: tl) hf)
            (Cmd.parse_nil_rest cfg o f a sub a0 tl hf)
        | cons t rest =>
          cases hs : subAt sub t with
          | none =>
            exact leaf (t :: rest) (Cmd.visits_no_sub cfg o f a sub (a0 :: tl) t rest hf hs)
              (Cmd.parse_no_sub cfg o f a sub a0 tl t rest hf hs)
          | some d =>
            have hv := Cmd.visits_sub cfg o f a sub (a0 :: tl) t rest d hf hs
            have hp := Cmd.parse_sub cfg o f a sub a0 tl t rest d hf hs
            rw [hp] at hok
            cases hd2 : (d.parse (t :: rest)).2 with
            | error e => rw [hd2] at hok; cases hok
            | panic pv => rw [hd2] at hok; cases hok
            | exit n => rw [hd2] at hok; cases hok
            | ok r1 =>
              rw [hd2] at hok
              simp only [] at hok
              have hd := ih t d (subAt_mem hs) (t :: rest) r1 (List.cons_ne_nil _ _) hd2
              have hc := Cmd.accepts_of_collect_ok _ _ _ hok
              refine ⟨hc.1, ?_⟩
              intro v hvm
              rw [hv] at hvm
              rcases List.mem_cons.1 hvm with h1 | h1
              · subst h1
                have h2 := hc.2
                rw [hd.1] at h2
                exact ⟨[], rfl, h2⟩
              · obtain ⟨w, hw, rfl⟩ := List.mem_map.1 h1
                exact (Visit.passes_push w t).2 (hd.2 w hw)

/-! ## Paths and error texts -/

theorem joinPath_cons (a : String) (l : List String) (h : l ≠ []) :
    joinPath (a :: l) = a ++ " > " ++ joinPath l := by
  cases l with
  | nil => exact absurd rfl h
  | cons b l => rfl

theorem PathFrom.head {c : Cmd} {x : Cmd} {l : List Cmd} (h : PathFrom c (x :: l)) : x = c := by
  cases l with
  | nil => exact h
  | cons y l => exact h.1

theorem PathFrom.initial (l1 : List Cmd) :
    ∀ (c x : Cmd) (l2 : List Cmd), PathFrom c (l1 ++ x :: l2) → PathFrom c (l1 ++ [x]) := by
  induction l1 with
  | nil =>
    intro c x l2 h
    exact h.head
  | cons z l1 ih =>
    intro c x l2 h
    cases l1 with
    | nil =>
      obtain ⟨h1, h2, h3⟩ := h
      exact ⟨h1, h2, rfl⟩
    | cons y l1 =>
      obtain ⟨h1, h2, h3⟩ := h
      exact ⟨h1, h2, ih y x l2 h3⟩

theorem visits_path (c : Cmd) :
    ∀ args : List String, PathFrom c ((c.visits args).map Visit.cmd) := by
  induction c using Cmd.induct with
  | h cfg o f a sub ih =>
    intro args
    cases hf : f.Parse args.tail with
    | error e =>
      rw [Cmd.visits_of_flags cfg o f a sub args (by intro r hr; rw [hf] at hr; cases hr)]
      rfl
    | panic pv =>
      rw [Cmd.visits_of_flags cfg o f a sub args (by intro r hr; rw [hf] at hr; cases hr)]
      rfl
    | exit n =>
      rw [Cmd.visits_of_flags cfg o f a sub args (by intro r hr; rw [hf] at hr; cases hr)]
      rfl
    | ok rest =>
      cases rest with
      | nil => rw [Cmd.visits_nil_rest cfg o f a sub args hf]; rfl
      | cons t rest =>
        cases hs : subAt sub t with
        | none => rw [Cmd.visits_no_sub cfg o f a sub args t rest hf hs]; rfl
        | some d =>
          rw [Cmd.visits_sub cfg o f a sub args t rest d hf hs]
          have hd := ih t d (subAt_mem hs) (t :: rest)
          rw [List.map_cons, List.map_map]
          have hmap : (Visit.cmd ∘ fun v : Visit => { v with path := t :: v.path }) = Visit.cmd :=
            rfl
          rw [hmap]
          cases hl : (d.visits (t :: rest)).map Visit.cmd with
          | nil => rw [hl] at hd; exact hd.elim
          | cons y l =>
            rw [hl] at hd
            have hy : y = d := hd.head
            subst hy
            exact ⟨rfl, ⟨t, hs⟩, hd⟩

theorem Cmd.setArgs_snd_sub (cfg : config) (o : Option ArgsOpts) (f : FlagSet) (a : Handle)
    (sub1 sub2 : List (String × Cmd)) (L : List String) :
    ((Cmd.mk cfg o f a sub1).setArgs L).2 = ((Cmd.mk cfg o f a sub2).setArgs L).2 := by
  cases o with
  | none =>
    rw [Cmd.setArgs_none (Cmd.mk cfg none f a sub1) L rfl,
      Cmd.setArgs_none (Cmd.mk cfg none f a sub2) L rfl]
    split <;> rfl
  | some opt =>
    rw [Cmd.setArgs_some (Cmd.mk cfg (some opt) f a sub1) opt L rfl,
      Cmd.setArgs_some (Cmd.mk cfg (some opt) f a sub2) opt L rfl]
    split <;> rfl

theorem Visit.fails_push (v : Visit) (k : String) (tail : String) :
    Visit.Fails { v with path := k :: v.path } tail ↔ v.Fails tail := Iff.rfl

/-- The origin of an error of `parse`: the visits split at the visit where the
failure originates, every deeper visit passes, and the error text is the
names of the commands down to the origin, then the tail of the failure. -/
theorem parse_error_origin (c : Cmd) :
    ∀ (args : List String) (e : String), args ≠ [] → (c.parse args).2 = .error e →
      ∃ vs v ws tail, c.visits args = vs ++ v :: ws ∧ (∀ w ∈ ws, w.Passes) ∧ v.Fails tail ∧
        e = joinPath ((vs ++ [v]).map (fun w => w.cmd.name)) ++ tail := by
  induction c using Cmd.induct with
  | h cfg o f a sub ih =>
    intro args e hne herr
    cases args with
    | nil => exact absurd rfl hne
    | cons a0 tl =>
      cases hf : f.Parse tl with
      | error cause =>
        rw [Cmd.parse_flags_error cfg o f a sub a0 tl cause hf] at herr
        cases herr
        refine ⟨[], _, [], ": bad flags: " ++ cause,
          Cmd.visits_of_flags cfg o f a sub (a0 :: tl)
            (by intro r hr; rw [List.tail_cons, hf] at hr; cases hr),
          (by intro w hw; cases hw), Or.inl ⟨rfl, cause, hf, rfl⟩, ?_⟩
        exact String.append_assoc _ _ _
      | panic pv => rw [Cmd.parse_flags_panic cfg o f a sub a0 tl pv hf] at herr; cases herr
      | exit n => rw [Cmd.parse_flags_exit cfg o f a sub a0 tl n hf] at herr; cases herr
      | ok rest =>
        have here : ∀ (sub1 : List (String × Cmd)) (L : List String) (ws : List Visit),
            (Cmd.mk cfg o f a sub).visits (a0 :: tl) =
              ⟨[], .mk cfg o f a sub, a0 :: tl, some L⟩ :: ws →
            (∀ w ∈ ws, w.Passes) →
            ((Cmd.mk cfg o f a sub1).collect L).2 = .error e →
            ∃ vs v ws tail, (Cmd.mk cfg o f a sub).visits (a0 :: tl) = vs ++ v :: ws ∧
              (∀ w ∈ ws, w.Passes) ∧ v.Fails tail ∧
              e = joinPath ((vs ++ [v]).map (fun w => w.cmd.name)) ++ tail := by
          intro sub1 L ws hv hws hc
          by_cases hacc : Accepts (Cmd.mk cfg o f a sub1).argsOpts L
          · rw [(Cmd.collect_of_accepts _ _ hacc).1] at hc
            cases hc
          · obtain ⟨cause, h1, h2⟩ := Cmd.collect_of_not_accepts _ _ hacc
            rw [h2] at hc
            cases hc
            rw [Cmd.setArgs_snd_sub cfg o f a sub1 sub L] at h1
            exact ⟨[], _, ws, ": bad positional args: " ++ cause, hv, hws,
              Or.inr ⟨L, cause, rfl, h1, rfl⟩, String.append_assoc _ _ _⟩
        cases rest with
        | nil =>
          rw [Cmd.parse_nil_rest cfg o f a sub a0 tl hf] at herr
          exact here sub [] [] (Cmd.visits_nil_rest cfg o f a sub (a0 :: tl) hf)
            (by intro w hw; cases hw) herr
        | cons t rest =>
          cases hs : subAt sub t with
          | none =>
            rw [Cmd.parse_no_sub cfg o f a sub a0 tl t rest hf hs] at herr
            exact here sub (t :: rest) []
              (Cmd.visits_no_sub cfg o f a sub (a0 :: tl) t rest hf hs)
              (by intro w hw; cases hw) herr
          | some d =>
            have hv := Cmd.visits_sub cfg o f a sub (a0 :: tl) t rest d hf hs
            rw [Cmd.parse_sub cfg o f a sub a0 tl t rest d hf hs] at herr
            cases hd2 : (d.parse (t :: rest)).2 with
            | panic pv => rw [hd2] at herr; cases herr
            | exit n => rw [hd2] at herr; cases herr
            | ok r1 =>
              rw [hd2] at herr
              simp only [] at herr
              have hd := passes_of_parse_ok d (t :: rest) r1 (List.cons_ne_nil _ _) hd2
              rw [hd.1] at herr
              refine here _ [] _ hv ?_ herr
              intro w hw
              obtain ⟨w0, hw0, rfl⟩ := List.mem_map.1 hw
              exact (Visit.passes_push w0 t).2 (hd.2 w0 hw0)
            | error e1 =>
              rw [hd2] at herr
              cases herr
              obtain ⟨vs, v, ws, tail, h1, h2, h3, h4⟩ :=
                ih t d (subAt_mem hs) (t :: rest) e1 (List.cons_ne_nil _ _) hd2
              refine ⟨Visit.mk [] (.mk cfg o f a sub) (a0 :: tl) (some []) ::
                  vs.map (fun v => { v with path := t :: v.path }),
                { v with path := t :: v.path },
                ws.map (fun v => { v with path := t :: v.path }), tail, ?_, ?_, ?_, ?_⟩
              · rw [hv, h1, List.map_append, List.map_cons, List.cons_append]
              · intro w hw
                obtain ⟨w0, hw0, rfl⟩ := List.mem_map.1 hw
                exact (Visit.passes_push w0 t).2 (h2 w0 hw0)
              · exact (Visit.fails_push v t tail).2 h3
              · have hnames : ((Visit.mk [] (.mk cfg o f a sub) (a0 :: tl) (some []) ::
                      vs.map (fun v : Visit => { v with path := t :: v.path })) ++
                      [({ v with path := t :: v.path } : Visit)]).map
                        (fun w : Visit => w.cmd.name) =
                    cfg.name :: (vs ++ [v]).map (fun w : Visit => w.cmd.name) := by
                  simp only [List.cons_append, List.map_cons, List.map_append, List.map_map,
                    List.map_nil]
                  rfl
                rw [hnames, joinPath_cons _ _ (by simp), h4]
                simp only [String.append_assoc]

theorem Parse_of_parse_error (c : Cmd) (args : List String) (e : String)
    (hvalid : c.validate = none) (herr : (c.parse args).2 = .error e) :
    (c.Parse args).2 = c.handleError (some e) := by
  have hcfg := Cmd.parse_cfg c args
  unfold Cmd.Parse
  rw [hvalid]
  simp only []
  rcases hp : c.parse args with ⟨c1, r⟩
  rw [hp] at hcfg herr
  have hr : r = .error e := herr
  subst hr
  show c1.handleError (some e) = c.handleError (some e)
  unfold Cmd.handleError Cmd.errorHandling
  rw [hcfg]

/-- C8: when the internal parse returns an error, the failure originates at a
visited node `v`: its flag parsing fails on the arguments it received, or,
every deeper visit having passed, its positional binding fails on the tokens
left over at it.  The nodes visited down to `v` are a path of the tree from
the root, and the error text is their names in that order, joined by `" > "`,
followed by `": bad flags: "` or `": bad positional args: "` and the cause.
On a tree that passes validation, `Parse` returns this error under
`ContinueOnError`. -/
theorem parse_error_names_path (c : Cmd) (args : List String) (e : String)
    (herr : (c.parse args).2 = .error e) :
    (∃ vs v ws tail, c.visits args = vs ++ v :: ws ∧ (∀ w ∈ ws, w.Passes) ∧ v.Fails tail ∧
      PathFrom c ((vs ++ [v]).map Visit.cmd) ∧
      e = joinPath ((vs ++ [v]).map (fun w => w.cmd.name)) ++ tail) ∧
    (c.validate = none → c.errorHandling = .ContinueOnError →
      (c.Parse args).2 = .error e) := by
  have hargs : args ≠ [] := by
    intro h
    subst h
    cases c with
    | mk cfg o f a sub =>
      rw [Cmd.parse] at herr
      cases herr
  constructor
  · obtain ⟨vs, v, ws, tail, h1, h2, h3, h4⟩ := parse_error_origin c args e hargs herr
    refine ⟨vs, v, ws, tail, h1, h2, h3, ?_, h4⟩
    have hp := visits_path c args
    rw [h1, List.map_append, List.map_cons] at hp
    rw [List.map_append, List.map_cons, List.map_nil]
    exact PathFrom.initial _ _ _ _ hp
  · intro hvalid heh
    rw [Parse_of_parse_error c args e hvalid herr]
    unfold Cmd.handleError
    rw [heh]

/-- Witness of C8: `cmd copy a` fails in the positional binding of the sub
command `copy`, which requires two arguments. -/
theorem parse_error_names_path_witness :
    (exCopy.parse ["cmd", "copy", "a"]).2 =
      .error "cmd > cmd copy: bad positional args: required 2 positional args, got [a]" ∧
    (∃ vs v ws tail, exCopy.visits ["cmd", "copy", "a"] = vs ++ v :: ws ∧
      (∀ w ∈ ws, w.Passes) ∧ v.Fails tail ∧
      PathFrom exCopy ((vs ++ [v]).map Visit.cmd) ∧
      "cmd > cmd copy: bad positional args: required 2 positional args, got [a]" =
        joinPath ((vs ++ [v]).map (fun w => w.cmd.name)) ++ tail) ∧
    (exCopy.Parse ["cmd", "copy", "a"]).2 =
      .error "cmd > cmd copy: bad positional args: required 2 positional args, got [a]" :=
  have h := parse_error_names_path exCopy ["cmd", "copy", "a"] _
    (show (exCopy.parse ["cmd", "copy", "a"]).2 =
      .error "cmd > cmd copy: bad positional args: required 2 positional args, got [a]" by
        decide)
  ⟨by decide, h.1, h.2 rfl rfl⟩

/-! ## The flag host consumes its input -/

/-- A step of flag parsing leaves a suffix of the pending tokens: all of
them when it stops at a token that is no flag, and fewer when it saw a flag. -/
theorem FlagSet.parseOne_suffix (f : FlagSet) (args : List String) :
    (∀ rest, f.parseOne args = .seen rest → rest.length < args.length ∧ rest <:+ args) ∧
    (∀ rest, f.parseOne args = .stop rest → rest <:+ args) := by
  cases args with
  | nil =>
    constructor
    · intro rest h; simp [FlagSet.parseOne] at h
    · intro rest h
      simp only [FlagSet.parseOne, FlagStep.stop.injEq] at h
      subst h
      exact List.suffix_refl _
  | cons s tl =>
    have h1 : tl.length < (s :: tl).length := by simp
    have h2 : tl <:+ s :: tl := List.suffix_cons _ _
    have h3 : ∀ v rest1, tl = v :: rest1 →
        rest1.length < (s :: tl).length ∧ rest1 <:+ s :: tl := by
      intro v rest1 h
      subst h
      refine ⟨by simp; omega, ?_⟩
      exact (List.suffix_cons _ _).trans (List.suffix_cons _ _)
    constructor
    · intro rest h
      rw [FlagSet.parseOne] at h
      repeat' (first | split at h | (simp only [] at h; split at h))
      all_goals first
        | (cases h; done)
        | (cases h; exact ⟨h1, h2⟩)
        | (cases h; subst_vars; exact h3 _ _ rfl)
    · intro rest h
      rw [FlagSet.parseOne] at h
      repeat' (first | split at h | (simp only [] at h; split at h))
      all_goals first
        | (cases h; done)
        | (cases h; exact h2)
        | (cases h; exact List.suffix_refl _)

/-- The loop of flag parsing does not depend on its fuel once the fuel exceeds
the number of pending tokens: `FlagSet.Parse` never runs out of it. -/
theorem FlagSet.parseLoop_fuel (f : FlagSet) :
    ∀ (n m : Nat) (args : List String), args.length < n → args.length < m →
      f.parseLoop n args = f.parseLoop m args := by
  intro n
  induction n with
  | zero => intro m args h; omega
  | succ n ih =>
    intro m args hn hm
    cases m with
    | zero => omega
    | succ m =>
      rw [FlagSet.parseLoop, FlagSet.parseLoop]
      cases hp : f.parseOne args with
      | seen rest =>
        have hl := ((f.parseOne_suffix args).1 rest hp).1
        exact ih m rest (by omega) (by omega)
      | stop rest => rfl
      | fail e => rfl

/-- The tokens that flag parsing leaves are a suffix of the tokens it
received. -/
theorem FlagSet.parseLoop_suffix (f : FlagSet) :
    ∀ (n : Nat) (args rest : List String), f.parseLoop n args = .ok rest → rest <:+ args := by
  intro n
  induction n with
  | zero =>
    intro args rest h
    simp only [FlagSet.parseLoop, Except.ok.injEq] at h
    subst h
    exact List.suffix_refl _
  | succ n ih =>
    intro args rest h
    rw [FlagSet.parseLoop] at h
    cases hp : f.parseOne args with
    | seen rest1 =>
      rw [hp] at h
      exact (ih rest1 rest h).trans ((f.parseOne_suffix args).1 rest1 hp).2
    | stop rest1 =>
      rw [hp] at h
      simp only [Except.ok.injEq] at h
      subst h
      exact (f.parseOne_suffix args).2 rest1 hp
    | fail e =>
      rw [hp] at h
      cases h

/-! ## Declaring the positional spec -/

theorem Cmd.setArgs_argsOpts (c : Cmd) (L : List String) :
    (c.setArgs L).1.argsOpts = c.argsOpts := by
  unfold Cmd.setArgs
  split <;> split <;> rfl

theorem Cmd.collect_argsOpts (c : Cmd) (L : List String) :
    (c.collect L).1.argsOpts = c.argsOpts := by
  rw [Cmd.collect_fst, Cmd.setArgs_argsOpts]

theorem Cmd.parse_argsOpts (c : Cmd) (args : List String) :
    (c.parse args).1.argsOpts = c.argsOpts := by
  cases c with
  | mk cfg o f a sub =>
    rw [Cmd.parse.eq_def]
    simp only []
    split
    · rfl
    · split
      · rfl
      · rfl
      · rfl
      · rw [Cmd.collect_argsOpts]
      · split <;> first | rfl | (rw [Cmd.collect_argsOpts]; done) |
          (rw [Cmd.collect_argsOpts]; rfl)

theorem Cmd.Parse_fst (c : Cmd) (args : List String) :
    (c.Parse args).1 = c ∨ (c.Parse args).1 = (c.parse args).1 := by
  unfold Cmd.Parse
  split
  · exact Or.inl rfl
  · right
    split <;> next h => rw [h]

theorem Cmd.Parse_argsOpts (c : Cmd) (args : List String) :
    (c.Parse args).1.argsOpts = c.argsOpts := by
  rcases Cmd.Parse_fst c args with h | h
  · rw [h]
  · rw [h, Cmd.parse_argsOpts]

/-- C11: on a node without spec (as `newCmd` makes every node) the first call
to `Args` does not fail, returns the pointer `c.args`, and installs the given
options, or the zero options with `N = 0` when given nil.  Every later call,
also after a `Parse` or a `SubCommand` on the node, panics and leaves the
node, and so the installed spec, unchanged. -/
theorem Args_only_once (c : Cmd) (opts : Option ArgsOpts) (hfresh : c.argsOpts = none) :
    (∀ cfg, (newCmd cfg).argsOpts = none) ∧
    (c.Args opts).2 = .ok c.args ∧
    (∀ o, opts = some o → (c.Args opts).1.argsOpts = some o) ∧
    (opts = none → (c.Args opts).1.argsOpts = some { N := 0, Usage := "", Details := "" }) ∧
    (∀ later, (c.Args opts).1.Args later =
      ((c.Args opts).1, .panic (.text "Args() called more than once."))) ∧
    (∀ args later, ((c.Args opts).1.Parse args).1.Args later =
      (((c.Args opts).1.Parse args).1, .panic (.text "Args() called more than once."))) ∧
    (∀ name synopsis options later,
      ((c.Args opts).1.SubCommand name synopsis options).1.Args later =
        (((c.Args opts).1.SubCommand name synopsis options).1,
          .panic (.text "Args() called more than once."))) := by
  have hpanic : ∀ (d : Cmd) (o : ArgsOpts) (later : Option ArgsOpts), d.argsOpts = some o →
      d.Args later = (d, .panic (.text "Args() called more than once.")) := by
    intro d o later hd
    unfold Cmd.Args
    rw [hd]
  have h1 : (c.Args opts).1.argsOpts =
      some (opts.getD { N := 0, Usage := "", Details := "" }) := by
    unfold Cmd.Args
    rw [hfresh]
    rfl
  refine ⟨fun cfg => rfl, ?_, ?_, ?_, ?_, ?_, ?_⟩
  · unfold Cmd.Args
    rw [hfresh]
  · intro o ho
    rw [h1, ho]
    rfl
  · intro ho
    rw [h1, ho]
    rfl
  · intro later
    exact hpanic _ _ later h1
  · intro args later
    exact hpanic _ _ later (by rw [Cmd.Parse_argsOpts, h1])
  · intro name synopsis options later
    refine hpanic _ (opts.getD { N := 0, Usage := "", Details := "" }) later ?_
    rw [← h1]
    unfold Cmd.SubCommand
    split <;> rfl

/-- Witness of C11 at the root `cmd`: the first call installs `N = 2`, the
second panics and the spec stays. -/
theorem Args_only_once_witness :
    exPlain.argsOpts = none ∧
    (exPlain.Args (some { N := 2, Usage := "", Details := "" })).2 = .ok none ∧
    ((exPlain.Args (some { N := 2, Usage := "", Details := "" })).1.Args none).2 =
      .panic (.text "Args() called more than once.") ∧
    ((exPlain.Args (some { N := 2, Usage := "", Details := "" })).1.Args none).1.argsOpts =
      some { N := 2, Usage := "", Details := "" } :=
  have h := Args_only_once exPlain (some { N := 2, Usage := "", Details := "" }) rfl
  ⟨rfl, h.2.1, by rw [h.2.2.2.2.1 none], by rw [h.2.2.2.2.1 none]; exact h.2.2.1 _ rfl⟩

/-! ## The remainder of a parse -/

/-- C16: whenever the internal parse of a node returns without error, its
remainder is empty, so that a parent never receives left-over tokens from a
sub command that parsed without error.  Hence a node that requires `N > 0`
positional arguments never parses without error when the first token after
its flags names one of its sub commands: when the sub command returns without
error, the node fails on the empty remainder with a bad-positional-args
error. -/
theorem parse_remainder_empty (c : Cmd) (args : List String) :
    (∀ r, (c.parse args).2 = .ok r → r = []) ∧
    (∀ a0 tl t rest d opt, args = a0 :: tl → c.flagSet.Parse tl = .ok (t :: rest) →
      subAt c.sub t = some d → c.argsOpts = some opt → 0 < opt.N →
      (∀ r, (c.parse args).2 ≠ .ok r) ∧
      (∀ r, (d.parse (t :: rest)).2 = .ok r → r = [] ∧ (c.parse args).2 =
        .error (c.name ++ ": bad positional args: " ++
          ("required " ++ fmtInt opt.N ++ " positional args, got " ++ fmtSlice [])))) := by
  have hrem : ∀ (c : Cmd) (args r : List String), (c.parse args).2 = .ok r → r = [] := by
    intro c args r hok
    cases args with
    | nil =>
      cases c with
      | mk cfg o f a sub =>
        rw [Cmd.parse] at hok
        cases hok
    | cons a0 tl => exact (passes_of_parse_ok c (a0 :: tl) r (List.cons_ne_nil _ _) hok).1
  refine ⟨hrem c args, ?_⟩
  intro a0 tl t rest d opt hargs hf hs hspec hN
  subst hargs
  cases c with
  | mk cfg o f a sub =>
    have hf1 : f.Parse tl = .ok (t :: rest) := hf
    have hs1 : subAt sub t = some d := hs
    have ho : o = some opt := hspec
    subst ho
    have hp := Cmd.parse_sub cfg (some opt) f a sub a0 tl t rest d hf1 hs1
    have hfail : ∀ sub1 : List (String × Cmd),
        (Cmd.mk cfg (some opt) f a sub1).collect [] =
          (Cmd.mk cfg (some opt) f a sub1, .error (cfg.name ++ ": bad positional args: " ++
            ("required " ++ fmtInt opt.N ++ " positional args, got " ++ fmtSlice []))) := by
      intro sub1
      apply Cmd.collect_of_error
      rw [Cmd.setArgs_some (Cmd.mk cfg (some opt) f a sub1) opt [] rfl, if_pos]
      refine ⟨hN, ?_⟩
      simp only [List.length_nil, Nat.cast_zero]
      omega
    have hchild : ∀ r, (d.parse (t :: rest)).2 = .ok r → r = [] ∧
        ((Cmd.mk cfg (some opt) f a sub).parse (a0 :: tl)).2 =
          .error (cfg.name ++ ": bad positional args: " ++
            ("required " ++ fmtInt opt.N ++ " positional args, got " ++ fmtSlice [])) := by
      intro r hr
      have hr0 := hrem d (t :: rest) r hr
      subst hr0
      refine ⟨rfl, ?_⟩
      rw [hp, hr]
      simp only []
      rw [hfail]
    refine ⟨?_, hchild⟩
    intro r hok
    cases hd : (d.parse (t :: rest)).2 with
    | ok r1 =>
      rw [(hchild r1 hd).2] at hok
      cases hok
    | error e => rw [hp, hd] at hok; cases hok
    | panic v => rw [hp, hd] at hok; cases hok
    | exit n => rw [hp, hd] at hok; cases hok

/-- Witness of C16: `cmd sub` on a root that requires two positional arguments
and has the sub command `sub`. -/
theorem parse_remainder_empty_witness :
    exFixedWithSub.flagSet.Parse ["sub"] = .ok ["sub"] ∧
    (∀ r, (exFixedWithSub.parse ["cmd", "sub"]).2 ≠ .ok r) ∧
    (exFixedWithSub.parse ["cmd", "sub"]).2 =
      .error "cmd: bad positional args: required 2 positional args, got []" ∧
    ((exCopy.parse ["cmd", "copy", "a", "b"]).2 = .ok [] ∧
      ∀ r, (exCopy.parse ["cmd", "copy", "a", "b"]).2 = .ok r → r = []) :=
  have hs : ∃ d, subAt exFixedWithSub.sub "sub" = some d := ⟨_, rfl⟩
  ⟨by decide,
    hs.elim (fun d hd => ((parse_remainder_empty exFixedWithSub ["cmd", "sub"]).2
      "cmd" ["sub"] "sub" [] d { N := 2, Usage := "", Details := "" } rfl (by decide) hd rfl
      (by decide)).1),
    by decide,
    by decide, (parse_remainder_empty exCopy ["cmd", "copy", "a", "b"]).1⟩

/-! ## The empty argument vector -/

theorem FlagSet.Parse_panic (f : FlagSet) (args : List String) (v : Fatal)
    (h : f.Parse args = .panic v) : ∃ e, v = .error e := by
  unfold FlagSet.Parse at h
  split at h
  · cases h
  · split at h
    · cases h
    · split at h <;> cases h
    · cases h
      exact ⟨_, rfl⟩

theorem Cmd.collect_not_panic (c : Cmd) (L : List String) (v : Fatal) :
    (c.collect L).2 ≠ .panic v := by
  intro h
  by_cases ha : Accepts c.argsOpts L
  · rw [(Cmd.collect_of_accepts c L ha).1] at h
    cases h
  · obtain ⟨cause, _, h2⟩ := Cmd.collect_of_not_accepts c L ha
    rw [h2] at h
    cases h

/-- On a non-empty argument vector `parse` panics only with a flag error that
the flag host raised under `PanicOnError`. -/
theorem parse_panic_is_flag_error (c : Cmd) :
    ∀ (args : List String) (v : Fatal), args ≠ [] → (c.parse args).2 = .panic v →
      ∃ e, v = .error e := by
  induction c using Cmd.induct with
  | h cfg o f a sub ih =>
    intro args v hne hp
    cases args with
    | nil => exact absurd rfl hne
    | cons a0 tl =>
      cases hf : f.Parse tl with
      | error e => rw [Cmd.parse_flags_error cfg o f a sub a0 tl e hf] at hp; cases hp
      | panic pv =>
        rw [Cmd.parse_flags_panic cfg o f a sub a0 tl pv hf] at hp
        cases hp
        exact FlagSet.Parse_panic f tl _ hf
      | exit n => rw [Cmd.parse_flags_exit cfg o f a sub a0 tl n hf] at hp; cases hp
      | ok rest =>
        cases rest with
        | nil =>
          rw [Cmd.parse_nil_rest cfg o f a sub a0 tl hf] at hp
          exact absurd hp (Cmd.collect_not_panic _ _ _)
        | cons t rest =>
          cases hs : subAt sub t with
          | none =>
            rw [Cmd.parse_no_sub cfg o f a sub a0 tl t rest hf hs] at hp
            exact absurd hp (Cmd.collect_not_panic _ _ _)
          | some d =>
            rw [Cmd.parse_sub cfg o f a sub a0 tl t rest d hf hs] at hp
            cases hd : (d.parse (t :: rest)).2 with
            | ok r =>
              rw [hd] at hp
              exact absurd hp (Cmd.collect_not_panic _ _ _)
            | error e => rw [hd] at hp; cases hp
            | exit n => rw [hd] at hp; cases hp
            | panic pv =>
              rw [hd] at hp
              cases hp
              exact ih t d (subAt_mem hs) (t :: rest) _ (List.cons_ne_nil _ _) hd

/-- Every visited command receives a non-empty argument vector when the
root does. -/
theorem visits_args_ne_nil (c : Cmd) :
    ∀ args : List String, args ≠ [] → ∀ v ∈ c.visits args, v.args ≠ [] := by
  induction c using Cmd.induct with
  | h cfg o f a sub ih =>
    intro args hne
    have one : ∀ L, ∀ v ∈ [Visit.mk [] (Cmd.mk cfg o f a sub) args L], v.args ≠ [] := by
      intro L v hv
      rw [List.mem_singleton] at hv
      subst hv
      exact hne
    cases hf : f.Parse args.tail with
    | error e =>
      rw [Cmd.visits_of_flags cfg o f a sub args (by intro r hr; rw [hf] at hr; cases hr)]
      exact one _
    | panic pv =>
      rw [Cmd.visits_of_flags cfg o f a sub args (by intro r hr; rw [hf] at hr; cases hr)]
      exact one _
    | exit n =>
      rw [Cmd.visits_of_flags cfg o f a sub args (by intro r hr; rw [hf] at hr; cases hr)]
      exact one _
    | ok rest =>
      cases rest with
      | nil => rw [Cmd.visits_nil_rest cfg o f a sub args hf]; exact one _
      | cons t rest =>
        cases hs : subAt sub t with
        | none => rw [Cmd.visits_no_sub cfg o f a sub args t rest hf hs]; exact one _
        | some d =>
          rw [Cmd.visits_sub cfg o f a sub args t rest d hf hs]
          intro v hv
          rcases List.mem_cons.1 hv with h1 | h1
          · subst h1; exact hne
          · obtain ⟨w, hw, rfl⟩ := List.mem_map.1 h1
            exact ih t d (subAt_mem hs) (t :: rest) (List.cons_ne_nil _ _) w hw

/-- C19: on a tree that passes validation, `Parse` panics with "must be at
least the command in arguments" if and only if the argument vector is empty.
On the empty vector it does so whatever the error handling is, and leaves the
tree unchanged; on a non-empty vector every visited command receives a
non-empty vector, and neither `parse` nor `Parse` ends in that panic. -/
theorem empty_vector_panics (c : Cmd) (args : List String) (hvalid : c.validate = none) :
    ((c.Parse args).2 = .panic (.text "must be at least the command in arguments") ↔
      args = []) ∧
    (c.Parse []).1 = c ∧
    (args ≠ [] → (∀ v ∈ c.visits args, v.args ≠ []) ∧
      (c.parse args).2 ≠ .panic (.text "must be at least the command in arguments")) := by
  have hnil : c.Parse [] = (c, .panic (.text "must be at least the command in arguments")) := by
    unfold Cmd.Parse
    rw [hvalid]
    cases c with
    | mk cfg o f a sub => rfl
  have hparse : args ≠ [] →
      (c.parse args).2 ≠ .panic (.text "must be at least the command in arguments") := by
    intro hne hp
    obtain ⟨e, he⟩ := parse_panic_is_flag_error c args _ hne hp
    cases he
  refine ⟨⟨?_, ?_⟩, by rw [hnil], fun hne => ⟨visits_args_ne_nil c args hne, hparse hne⟩⟩
  · intro hP
    by_contra hne
    apply hparse hne
    unfold Cmd.Parse at hP
    rw [hvalid] at hP
    simp only [] at hP
    rcases hq : c.parse args with ⟨c1, r⟩
    rw [hq] at hP
    cases r with
    | ok r1 => simp [Cmd.handleError] at hP
    | error e =>
      simp only [Cmd.handleError] at hP
      split at hP <;> cases hP
    | panic v => simpa using hP
    | exit n => cases hP
  · intro h
    subst h
    rw [hnil]

/-- Witness of C19 at the root `cmd` with the sub command `copy`, under the
three kinds of error handling for the empty vector. -/
theorem empty_vector_panics_witness :
    exCopy.validate = none ∧
    (exCopy.Parse []).2 = .panic (.text "must be at least the command in arguments") ∧
    (∀ eh, ((exScoped eh).Parse []).2 =
      .panic (.text "must be at least the command in arguments")) ∧
    (exCopy.Parse ["cmd"]).2 = .ok () :=
  ⟨rfl, ((empty_vector_panics exCopy [] rfl).1).2 rfl,
    fun eh => ((empty_vector_panics (exScoped eh) [] (by cases eh <;> rfl)).1).2 rfl,
    by decide⟩

/-! ## A sub command name wins over positional binding -/

theorem Cmd.setArgs_sub (c : Cmd) (L : List String) : (c.setArgs L).1.sub = c.sub := by
  unfold Cmd.setArgs
  split <;> split <;> rfl

theorem Cmd.collect_sub (c : Cmd) (L : List String) : (c.collect L).1.sub = c.sub := by
  rw [Cmd.collect_fst, Cmd.setArgs_sub]

/-- C15, as stated, fails: the root `cmd` requires two positional arguments
and has the sub command `sub`; on `cmd sub` the sub command is selected and
parses without error, yet the root is not bound to the empty sequence: its
`args` pointer stays nil and the parse returns an error. -/
theorem child_success_leaves_parent_unbound :
    exFixedWithSub.argsOpts = some { N := 2, Usage := "", Details := "" } ∧
    exFixedWithSub.flagSet.Parse ["sub"] = .ok ["sub"] ∧
    (∃ d, subAt exFixedWithSub.sub "sub" = some d ∧ (d.parse ["sub"]).2 = .ok []) ∧
    (exFixedWithSub.parse ["cmd", "sub"]).1.args = none ∧
    (exFixedWithSub.parse ["cmd", "sub"]).1.args ≠ some [] ∧
    (exFixedWithSub.parse ["cmd", "sub"]).2 =
      .error "cmd: bad positional args: required 2 positional args, got []" := by
  refine ⟨rfl, by decide, ⟨_, rfl, by decide⟩, rfl, by decide, by decide⟩

/-- C15, amended: for a node that declares a positional spec and has a child
under `s`, when the first token that remains after the node's flag parsing is
`s`, the child is parsed with the remaining tokens, `s` first, and the node's
binding afterwards is either what it was or the empty sequence, so `s` is not
bound at the node.  When the child parses without error and the node's
required count is `N ≤ 0`, the node is bound to the empty sequence; when the
child parses without error and `N > 0`, the parse fails with a
bad-positional-args error and the node's binding is what it was. -/
theorem child_name_wins (c : Cmd) (opt : ArgsOpts) (a0 s : String) (tl rest : List String)
    (d : Cmd) (hspec : c.argsOpts = some opt) (hsub : subAt c.sub s = some d)
    (hflags : c.flagSet.Parse tl = .ok (s :: rest)) :
    subAt (c.parse (a0 :: tl)).1.sub s = some (d.parse (s :: rest)).1 ∧
    c.visits (a0 :: tl) = ⟨[], c, a0 :: tl, some []⟩ ::
      (d.visits (s :: rest)).map (fun v => { v with path := s :: v.path }) ∧
    ((c.parse (a0 :: tl)).1.args = c.args ∨ (c.parse (a0 :: tl)).1.args = some []) ∧
    (∀ r, (d.parse (s :: rest)).2 = .ok r → opt.N ≤ 0 →
      (c.parse (a0 :: tl)).2 = .ok [] ∧ (c.parse (a0 :: tl)).1.args = some []) ∧
    (∀ r, (d.parse (s :: rest)).2 = .ok r → 0 < opt.N →
      (c.parse (a0 :: tl)).2 = .error (c.name ++ ": bad positional args: " ++
        ("required " ++ fmtInt opt.N ++ " positional args, got " ++ fmtSlice [])) ∧
      (c.parse (a0 :: tl)).1.args = c.args) := by
  cases c with
  | mk cfg o f a sub =>
    have hf : f.Parse tl = .ok (s :: rest) := hflags
    have hs : subAt sub s = some d := hsub
    have ho : o = some opt := hspec
    subst ho
    have hp := Cmd.parse_sub cfg (some opt) f a sub a0 tl s rest d hf hs
    have hv := Cmd.visits_sub cfg (some opt) f a sub (a0 :: tl) s rest d hf hs
    have hrem : ∀ r, (d.parse (s :: rest)).2 = .ok r → r = [] := fun r hr =>
      (passes_of_parse_ok d (s :: rest) r (List.cons_ne_nil _ _) hr).1
    have hyes : ∀ sub1 : List (String × Cmd), opt.N ≤ 0 →
        (Cmd.mk cfg (some opt) f a sub1).collect [] =
          (Cmd.mk cfg (some opt) f (some []) sub1, .ok []) := by
      intro sub1 hN
      apply Cmd.collect_of_ok
      rw [Cmd.setArgs_some (Cmd.mk cfg (some opt) f a sub1) opt [] rfl, if_neg]
      · rfl
      · intro hc; omega
    have hno : ∀ sub1 : List (String × Cmd), 0 < opt.N →
        (Cmd.mk cfg (some opt) f a sub1).collect [] =
          (Cmd.mk cfg (some opt) f a sub1, .error (cfg.name ++ ": bad positional args: " ++
            ("required " ++ fmtInt opt.N ++ " positional args, got " ++ fmtSlice []))) := by
      intro sub1 hN
      apply Cmd.collect_of_error
      rw [Cmd.setArgs_some (Cmd.mk cfg (some opt) f a sub1) opt [] rfl, if_pos]
      refine ⟨hN, ?_⟩
      simp only [List.length_nil, Nat.cast_zero]
      omega
    have hsubs : ((Cmd.mk cfg (some opt) f a sub).parse (a0 :: tl)).1.sub =
        subSet sub s (d.parse (s :: rest)).1 := by
      rw [hp]
      cases (d.parse (s :: rest)).2 with
      | ok r => simp only []; rw [Cmd.collect_sub]; rfl
      | error e => rfl
      | panic v => rfl
      | exit n => rfl
    refine ⟨?_, hv, ?_, ?_, ?_⟩
    · rw [hsubs, subAt_subSet, if_pos rfl]
    · rw [hp]
      cases hd : (d.parse (s :: rest)).2 with
      | ok r =>
        simp only []
        rw [hrem r hd]
        by_cases hN : 0 < opt.N
        · rw [hno _ hN]; exact Or.inl rfl
        · rw [hyes _ (by omega)]; exact Or.inr rfl
      | error e => exact Or.inl rfl
      | panic v => exact Or.inl rfl
      | exit n => exact Or.inl rfl
    · intro r hr hN
      rw [hp, hr]
      simp only []
      rw [hrem r hr, hyes _ hN]
      exact ⟨rfl, rfl⟩
    · intro r hr hN
      rw [hp, hr]
      simp only []
      rw [hrem r hr, hno _ hN]
      exact ⟨rfl, rfl⟩

/-- Witness of the amended C15 at the root `cmd` that requires two positional
arguments and has the sub command `sub`. -/
theorem child_name_wins_witness :
    exFixedWithSub.argsOpts = some { N := 2, Usage := "", Details := "" } ∧
    exFixedWithSub.flagSet.Parse ["sub", "x"] = .ok ["sub", "x"] ∧
    (∃ d, subAt exFixedWithSub.sub "sub" = some d ∧
      subAt (exFixedWithSub.parse ["cmd", "sub", "x"]).1.sub "sub" =
        some (d.parse ["sub", "x"]).1) ∧
    ((exFixedWithSub.parse ["cmd", "sub", "x"]).1.args = exFixedWithSub.args ∨
      (exFixedWithSub.parse ["cmd", "sub", "x"]).1.args = some []) :=
  have hd : subAt exFixedWithSub.sub "sub" = some (newCmd {
      name := "cmd sub"
      errorHandling := .ContinueOnError
      synopsis := ""
      details := "" }) := rfl
  have h := child_name_wins exFixedWithSub { N := 2, Usage := "", Details := "" } "cmd" "sub"
    ["sub", "x"] ["x"] _ rfl hd (by decide)
  ⟨rfl, by decide, ⟨_, hd, h.1⟩, h.2.2.1⟩

/-! ## The recursion of the parse -/

theorem FlagSet.Parse_suffix (f : FlagSet) (args rest : List String)
    (h : f.Parse args = .ok rest) : rest <:+ args := by
  unfold FlagSet.Parse at h
  split at h
  · next h1 =>
    cases h
    exact FlagSet.parseLoop_suffix f _ _ _ h1
  · split at h
    · cases h
    · split at h <;> cases h
    · cases h

theorem depthSubs_le {sub : List (String × Cmd)} {k : String} {d : Cmd}
    (h : (k, d) ∈ sub) : d.depth + 1 ≤ depthSubs sub := by
  induction sub with
  | nil => cases h
  | cons hd tl ih =>
    rcases hd with ⟨k1, c1⟩
    rw [depthSubs]
    rcases List.mem_cons.1 h with h1 | h1
    · cases h1
      exact le_max_left _ _
    · exact le_trans (ih h1) (le_max_right _ _)

/-- The visits start at the command with the vector it received, each next
visit receives a strictly shorter vector, and there are no more visits than
tokens in the vector nor than the depth of the tree plus one. -/
theorem visits_shrink (c : Cmd) :
    ∀ args : List String, args ≠ [] →
      (c.visits args).head?.map Visit.args = some args ∧
      List.Chain' (fun v w : Visit => w.args.length < v.args.length) (c.visits args) ∧
      (c.visits args).length ≤ args.length ∧
      (c.visits args).length ≤ c.depth + 1 := by
  induction c using Cmd.induct with
  | h cfg o f a sub ih =>
    intro args hne
    have hlen : 1 ≤ args.length := List.length_pos.2 hne
    have one : ∀ L, (Cmd.mk cfg o f a sub).visits args =
          [Visit.mk [] (Cmd.mk cfg o f a sub) args L] →
        ((Cmd.mk cfg o f a sub).visits args).head?.map Visit.args = some args ∧
        List.Chain' (fun v w : Visit => w.args.length < v.args.length)
          ((Cmd.mk cfg o f a sub).visits args) ∧
        ((Cmd.mk cfg o f a sub).visits args).length ≤ args.length ∧
        ((Cmd.mk cfg o f a sub).visits args).length ≤ (Cmd.mk cfg o f a sub).depth + 1 := by
      intro L hv
      rw [hv]
      exact ⟨rfl, List.chain'_singleton _, hlen, by simp⟩
    cases hf : f.Parse args.tail with
    | error e =>
      exact one _ (Cmd.visits_of_flags cfg o f a sub args
        (by intro r hr; rw [hf] at hr; cases hr))
    | panic pv =>
      exact one _ (Cmd.visits_of_flags cfg o f a sub args
        (by intro r hr; rw [hf] at hr; cases hr))
    | exit n =>
      exact one _ (Cmd.visits_of_flags cfg o f a sub args
        (by intro r hr; rw [hf] at hr; cases hr))
    | ok rest =>
      cases rest with
      | nil => exact one _ (Cmd.visits_nil_rest cfg o f a sub args hf)
      | cons t rest =>
        cases hs : subAt sub t with
        | none => exact one _ (Cmd.visits_no_sub cfg o f a sub args t rest hf hs)
        | some d =>
          rw [Cmd.visits_sub cfg o f a sub args t rest d hf hs]
          obtain ⟨h1, h2, h3, h4⟩ := ih t d (subAt_mem hs) (t :: rest) (List.cons_ne_nil _ _)
          have hsuf : (t :: rest).length ≤ args.tail.length :=
            (FlagSet.Parse_suffix f _ _ hf).length_le
          have htail : args.tail.length + 1 = args.length := by
            cases args with
            | nil => exact absurd rfl hne
            | cons a0 tl => simp
          refine ⟨rfl, ?_, ?_, ?_⟩
          · rw [List.chain'_cons']
            constructor
            · intro w hw
              rw [List.head?_map] at hw
              cases hh : (d.visits (t :: rest)).head? with
              | none => rw [hh] at hw; cases hw
              | some w0 =>
                rw [hh] at hw h1
                simp only [Option.map_some', Option.some.injEq, Option.mem_def] at hw h1
                subst hw
                show w0.args.length < args.length
                rw [h1]
                omega
            · rw [List.chain'_map]
              exact h2
          · simp only [List.length_cons, List.length_map]
            omega
          · simp only [List.length_cons, List.length_map]
            have hdep := depthSubs_le (subAt_mem hs)
            have : (Cmd.mk cfg o f a sub).depth = depthSubs sub := by rw [Cmd.depth]
            omega

/-! ## A failed parse leaves the bindings alone -/

theorem subSet_self {sub : List (String × Cmd)} {k : String} {d : Cmd}
    (h : subAt sub k = some d) : subSet sub k d = sub := by
  induction sub with
  | nil => simp [subAt] at h
  | cons hd tl ih =>
    rcases hd with ⟨k1, c1⟩
    by_cases h1 : k1 = k
    · simp only [subAt, h1, if_true, Option.some.injEq] at h
      subst h
      simp [subSet, h1]
    · simp only [subAt, h1, if_false] at h
      simp [subSet, h1, ih h]

theorem Cmd.collect_fst_of_none (c : Cmd) (L : List String) (h : c.argsOpts = none) :
    (c.collect L).1 = c := by
  rw [Cmd.collect_fst, Cmd.setArgs_none c L h]
  split <;> rfl

theorem Cmd.collect_fst_of_not_ok (c : Cmd) (L : List String)
    (h : ∀ r, (c.collect L).2 ≠ .ok r) : (c.collect L).1 = c := by
  by_cases ha : Accepts c.argsOpts L
  · exact absurd (Cmd.collect_of_accepts c L ha).1 (h _)
  · obtain ⟨cause, _, h2⟩ := Cmd.collect_of_not_accepts c L ha
    rw [h2]

/-- In a tree none of whose nodes declares a spec `parse` writes nothing. -/
theorem parse_fst_of_no_spec (c : Cmd) :
    ∀ args : List String, (∀ n, c.Within n → n.argsOpts = none) → (c.parse args).1 = c := by
  induction c using Cmd.induct with
  | h cfg o f a sub ih =>
    intro args hall
    have ho : (Cmd.mk cfg o f a sub).argsOpts = none := hall _ (Or.inl rfl)
    cases args with
    | nil => rw [Cmd.parse]
    | cons a0 tl =>
      cases hf : f.Parse tl with
      | error e => rw [Cmd.parse_flags_error cfg o f a sub a0 tl e hf]
      | panic pv => rw [Cmd.parse_flags_panic cfg o f a sub a0 tl pv hf]
      | exit n => rw [Cmd.parse_flags_exit cfg o f a sub a0 tl n hf]
      | ok rest =>
        cases rest with
        | nil =>
          rw [Cmd.parse_nil_rest cfg o f a sub a0 tl hf]
          exact Cmd.collect_fst_of_none _ _ ho
        | cons t rest =>
          cases hs : subAt sub t with
          | none =>
            rw [Cmd.parse_no_sub cfg o f a sub a0 tl t rest hf hs]
            exact Cmd.collect_fst_of_none _ _ ho
          | some d =>
            have hd : (d.parse (t :: rest)).1 = d :=
              ih t d (subAt_mem hs) (t :: rest)
                (fun n hn => hall n (Or.inr (Cmd.Descends.of_sub (subAt_mem hs) hn)))
            rw [Cmd.parse_sub cfg o f a sub a0 tl t rest d hf hs, hd, subSet_self hs]
            cases (d.parse (t :: rest)).2 with
            | ok r => exact Cmd.collect_fst_of_none _ _ ho
            | error e => rfl
            | panic v => rfl
            | exit n => rfl

/-- On a tree without a conflicting pair, a `parse` that does not return
without error leaves the tree as it was. -/
theorem parse_fst_of_not_ok (c : Cmd) :
    ∀ args : List String, ¬ c.Conflict → (∀ r, (c.parse args).2 ≠ .ok r) →
      (c.parse args).1 = c := by
  induction c using Cmd.induct with
  | h cfg o f a sub ih =>
    intro args hvalid hfail
    cases args with
    | nil => rw [Cmd.parse]
    | cons a0 tl =>
      cases hf : f.Parse tl with
      | error e => rw [Cmd.parse_flags_error cfg o f a sub a0 tl e hf]
      | panic pv => rw [Cmd.parse_flags_panic cfg o f a sub a0 tl pv hf]
      | exit n => rw [Cmd.parse_flags_exit cfg o f a sub a0 tl n hf]
      | ok rest =>
        cases rest with
        | nil =>
          rw [Cmd.parse_nil_rest cfg o f a sub a0 tl hf] at hfail ⊢
          exact Cmd.collect_fst_of_not_ok _ _ hfail
        | cons t rest =>
          cases hs : subAt sub t with
          | none =>
            rw [Cmd.parse_no_sub cfg o f a sub a0 tl t rest hf hs] at hfail ⊢
            exact Cmd.collect_fst_of_not_ok _ _ hfail
          | some d =>
            have hdvalid : ¬ d.Conflict := by
              rintro ⟨n, m, hn, hm, h1, h2⟩
              exact hvalid ⟨n, m, Or.inr (Cmd.Descends.of_sub (subAt_mem hs) hn), hm, h1, h2⟩
            rw [Cmd.parse_sub cfg o f a sub a0 tl t rest d hf hs] at hfail ⊢
            cases hd : (d.parse (t :: rest)).2 with
            | error e =>
              rw [ih t d (subAt_mem hs) (t :: rest) hdvalid
                (by intro r hr; rw [hd] at hr; cases hr), subSet_self hs]
            | panic v =>
              rw [ih t d (subAt_mem hs) (t :: rest) hdvalid
                (by intro r hr; rw [hd] at hr; cases hr), subSet_self hs]
            | exit n =>
              rw [ih t d (subAt_mem hs) (t :: rest) hdvalid
                (by intro r hr; rw [hd] at hr; cases hr), subSet_self hs]
            | ok r =>
              rw [hd] at hfail
              simp only [] at hfail ⊢
              have hspec : o ≠ none := by
                intro ho
                subst ho
                have hr := (passes_of_parse_ok d (t :: rest) r (List.cons_ne_nil _ _) hd).1
                subst hr
                exact hfail [] (Cmd.collect_of_accepts
                  (Cmd.mk cfg none f a (subSet sub t (d.parse (t :: rest)).1)) [] rfl).1
              have hdnone : ∀ n, d.Within n → n.argsOpts = none := by
                intro n hn
                by_contra hne
                exact hvalid ⟨_, n, Or.inl rfl, Cmd.Descends.of_sub (subAt_mem hs) hn,
                  hspec, hne⟩
              rw [parse_fst_of_no_spec d (t :: rest) hdnone, subSet_self hs] at hfail ⊢
              exact Cmd.collect_fst_of_not_ok _ _ hfail

/-- C17: on a tree in which no node and strict descendant both declare a
positional spec, and for every argument vector, a parse that fails (it returns
an error, panics, or ends the process) leaves the whole tree, and so every
node's positional binding, as it was; this holds for the internal `parse` and
for `Parse`.  Without the precondition it does not: on the root `cmd` that
requires two arguments and whose sub command `sub` declares a spec too,
`cmd sub x` binds `sub` to `[x]` and fails; so does `Parse` on the like tree
whose root is named `""`, which passes validation. -/
theorem failed_parse_keeps_bindings (c : Cmd) (args : List String) (hvalid : ¬ c.Conflict) :
    ((∀ r, (c.parse args).2 ≠ .ok r) → (c.parse args).1 = c) ∧
    ((c.Parse args).2 ≠ .ok () → (c.Parse args).1 = c) ∧
    (exBoth.Conflict ∧ (nodeAt ["sub"] exBoth).map Cmd.args = some none ∧
      (exBoth.parse ["cmd", "sub", "x"]).2 =
        .error "cmd: bad positional args: required 2 positional args, got []" ∧
      (nodeAt ["sub"] (exBoth.parse ["cmd", "sub", "x"]).1).map Cmd.args = some (some ["x"])) ∧
    (exUnnamedFixed.Conflict ∧ exUnnamedFixed.validate = none ∧
      (exUnnamedFixed.Parse ["prog", "a", "x"]).2 =
        .error ": bad positional args: required 2 positional args, got []" ∧
      (nodeAt ["a"] (exUnnamedFixed.Parse ["prog", "a", "x"]).1).map Cmd.args =
        some (some ["x"])) := by
  have conflict : ∀ (c0 : Cmd) (k : String), c0.argsOpts.isSome = true →
      ((subAt c0.sub k).bind Cmd.argsOpts).isSome = true → c0.Conflict := by
    intro c0 k h1 h2
    cases hd : subAt c0.sub k with
    | none => rw [hd] at h2; cases h2
    | some d =>
      rw [hd] at h2
      exact ⟨c0, d, Or.inl rfl, .sub (subAt_mem hd), Option.ne_none_iff_isSome.2 h1,
        Option.ne_none_iff_isSome.2 h2⟩
  refine ⟨parse_fst_of_not_ok c args hvalid, ?_,
    ⟨conflict exBoth "sub" (by decide) (by decide), rfl, by decide, rfl⟩,
    ⟨conflict exUnnamedFixed "a" (by decide) (by decide), rfl, by decide, rfl⟩⟩
  intro hP
  unfold Cmd.Parse at hP ⊢
  rw [validate_of_no_conflict c hvalid] at hP ⊢
  simp only [] at hP ⊢
  have hq := parse_fst_of_not_ok c args hvalid
  rcases hp : c.parse args with ⟨c1, r⟩
  rw [hp] at hP hq
  cases r with
  | ok r1 => exact absurd rfl hP
  | error e => exact hq (by intro r hr; cases hr)
  | panic v => exact hq (by intro r hr; cases hr)
  | exit n => exact hq (by intro r hr; cases hr)

/-- Witness of C17: `cmd copy a` fails on the root `cmd` with the sub command
`copy`, which requires two arguments, and the tree is as before. -/
theorem failed_parse_keeps_bindings_witness :
    ¬ exCopy.Conflict ∧
    (exCopy.parse ["cmd", "copy", "a"]).2 =
      .error "cmd > cmd copy: bad positional args: required 2 positional args, got [a]" ∧
    (exCopy.parse ["cmd", "copy", "a"]).1 = exCopy ∧
    (exCopy.Parse ["cmd", "copy", "a"]).1 = exCopy :=
  have h := failed_parse_keeps_bindings exCopy ["cmd", "copy", "a"] exCopy_no_conflict
  have he : (exCopy.parse ["cmd", "copy", "a"]).2 =
      .error "cmd > cmd copy: bad positional args: required 2 positional args, got [a]" := by
    decide
  ⟨exCopy_no_conflict, he, h.1 (fun r hr => by rw [he] at hr; cases hr), h.2.1 (by decide)⟩

/-! ## The order of strings and sorting -/

theorem charsLt_iff : ∀ (as bs : List Char), charsLt as bs = true ↔ as < bs
  | _, [] => by
    constructor
    · intro h; simp [charsLt] at h
    · intro h; exact absurd h (List.Lex.not_nil_right _ _)
  | [], b :: bs => by
    constructor
    · intro _; exact List.Lex.nil
    · intro _; rfl
  | a :: as, b :: bs => by
    have ih := charsLt_iff as bs
    have hc : a.toNat < b.toNat ↔ a < b := Iff.rfl
    rw [charsLt]
    constructor
    · intro h
      split at h
      · next h1 => exact List.Lex.rel (hc.1 h1)
      · split at h
        · next h2 => subst h2; exact List.Lex.cons (ih.1 h)
        · cases h
    · intro h
      cases h with
      | rel h1 => rw [if_pos (hc.2 h1)]
      | cons h1 =>
        split
        · rfl
        · rw [if_pos rfl]; exact ih.2 h1

/-- The comparison of the model is the order of `String`. -/
theorem strLe_iff (a b : String) : strLe a b = true ↔ a ≤ b := by
  unfold strLe
  rw [Bool.not_eq_true', ← Bool.not_eq_true, charsLt_iff]
  show ¬ b.toList < a.toList ↔ a ≤ b
  rw [← String.lt_iff_toList_lt, not_lt]

theorem sortStrings_perm (l : List String) : (sortStrings l).Perm l :=
  List.perm_insertionSort _ l

theorem sortStrings_sorted (l : List String) : List.Sorted (· ≤ ·) (sortStrings l) := by
  haveI : IsTotal String (fun a b => strLe a b = true) :=
    ⟨fun a b => by simp only [strLe_iff]; exact le_total a b⟩
  haveI : IsTrans String (fun a b => strLe a b = true) :=
    ⟨fun a b c => by simp only [strLe_iff]; exact le_trans⟩
  have h := List.sorted_insertionSort (fun a b => strLe a b = true) l
  exact h.imp (fun {a b} hab => (strLe_iff a b).1 hab)

theorem sortStrings_strict (l : List String) (hl : l.Nodup) :
    List.Sorted (· < ·) (sortStrings l) :=
  (sortStrings_sorted l).lt_of_le ((sortStrings_perm l).nodup_iff.2 hl)

theorem sortStrings_of_perm (l l2 : List String) (h : l.Perm l2) :
    sortStrings l = sortStrings l2 := by
  apply List.eq_of_perm_of_sorted (r := (· ≤ ·)) _ (sortStrings_sorted l) (sortStrings_sorted l2)
  exact ((sortStrings_perm l).trans h).trans (sortStrings_perm l2).symm

/-! ## The shape of built trees -/

theorem Cmd.within_of_sub {c m n : Cmd} {k : String} (hm : (k, m) ∈ c.sub)
    (h : m.Within n) : c.Within n :=
  Or.inr (Cmd.Descends.of_sub hm h)

theorem Cmd.sound_iff (c : Cmd) :
    c.Sound ↔ (c.sub.map Prod.fst).Nodup ∧
      ∀ k d, (k, d) ∈ c.sub → d.name = c.name ++ " " ++ k ∧ d.Sound := by
  constructor
  · intro h
    refine ⟨(h c (Or.inl rfl)).1, ?_⟩
    intro k d hd
    exact ⟨(h c (Or.inl rfl)).2 k d hd, fun n hn => h n (Cmd.within_of_sub hd hn)⟩
  · rintro ⟨h1, h2⟩ n hn
    rcases hn with hn | hn
    · subst hn
      exact ⟨h1, fun k d hd => (h2 k d hd).1⟩
    · obtain ⟨k, m, hm, hw⟩ := hn.exists_sub
      exact (h2 k m hm).2 n hw

theorem Cmd.Sound.within {c n : Cmd} (h : c.Sound) (hn : c.Within n) : n.Sound := by
  intro m hm
  rcases hn with hn | hn
  · subst hn; exact h m hm
  · rcases hm with hm | hm
    · subst hm; exact h m (Or.inr hn)
    · refine h m (Or.inr ?_)
      clear h
      induction hn with
      | sub hk => exact .step hk hm
      | step hk _ ih => exact .step hk (ih hm)

theorem Cmd.sound_congr {c c2 : Cmd} (hname : c2.name = c.name) (hsub : c2.sub = c.sub)
    (h : c.Sound) : c2.Sound := by
  rw [Cmd.sound_iff] at h ⊢
  rw [hname, hsub]
  exact h

theorem newCmd_sound (cfg : config) : (newCmd cfg).Sound := by
  rw [Cmd.sound_iff]
  exact ⟨List.nodup_nil, fun k d hd => by cases hd⟩

theorem subSet_keys {sub : List (String × Cmd)} {k : String} {d : Cmd} (v : Cmd)
    (h : subAt sub k = some d) : (subSet sub k v).map Prod.fst = sub.map Prod.fst := by
  induction sub with
  | nil => simp [subAt] at h
  | cons hd tl ih =>
    rcases hd with ⟨k1, c1⟩
    by_cases h1 : k1 = k
    · simp [subSet, h1]
    · simp only [subAt, h1, if_false] at h
      simp [subSet, h1, ih h]

theorem mem_subSet {sub : List (String × Cmd)} {k k2 : String} {v d2 : Cmd}
    (h : (k2, d2) ∈ subSet sub k v) : (k2, d2) ∈ sub ∨ (k2 = k ∧ d2 = v) := by
  induction sub with
  | nil =>
    simp only [subSet, List.mem_singleton, Prod.mk.injEq] at h
    exact Or.inr h
  | cons hd tl ih =>
    rcases hd with ⟨k1, c1⟩
    by_cases h1 : k1 = k
    · simp only [subSet, h1, if_true, List.mem_cons, Prod.mk.injEq] at h
      rcases h with h | h
      · exact Or.inr h
      · exact Or.inl (List.mem_cons_of_mem _ h)
    · simp only [subSet, h1, if_false, List.mem_cons] at h
      rcases h with h | h
      · exact Or.inl (by rw [h]; exact List.mem_cons_self _ _)
      · rcases ih h with h2 | h2
        · exact Or.inl (List.mem_cons_of_mem _ h2)
        · exact Or.inr h2

theorem subAt_none_iff (sub : List (String × Cmd)) (k : String) :
    subAt sub k = none ↔ k ∉ sub.map Prod.fst := by
  induction sub with
  | nil => simp [subAt]
  | cons hd tl ih =>
    rcases hd with ⟨k1, c1⟩
    by_cases h1 : k1 = k
    · simp [subAt, h1]
    · simp [subAt, h1, ih, Ne.symm h1]

/-- Replacing a sub command by one of the same name and shape keeps the
shape of the parent. -/
theorem Cmd.sound_subSet (cfg : config) (o : Option ArgsOpts) (f : FlagSet) (a : Handle)
    (c : Cmd) (k : String) (d d2 : Cmd) (h : c.Sound) (hcfg : cfg.name = c.name)
    (hs : subAt c.sub k = some d) (hname : d2.name = d.name) (hd2 : d2.Sound) :
    (Cmd.mk cfg o f a (subSet c.sub k d2)).Sound := by
  rw [Cmd.sound_iff] at h ⊢
  refine ⟨?_, ?_⟩
  · show ((subSet c.sub k d2).map Prod.fst).Nodup
    rw [subSet_keys d2 hs]
    exact h.1
  · intro k2 x hx
    have hx1 : (k2, x) ∈ subSet c.sub k d2 := hx
    show x.name = cfg.name ++ " " ++ k2 ∧ x.Sound
    rw [hcfg]
    rcases mem_subSet hx1 with h1 | ⟨h1, h2⟩
    · exact h.2 k2 x h1
    · subst h1; subst h2
      exact ⟨by rw [hname]; exact (h.2 k2 d (subAt_mem hs)).1, hd2⟩

theorem Cmd.update_name (p : List String) (f : Cmd → Cmd) (hf : ∀ d, (f d).name = d.name)
    (c : Cmd) : (Cmd.update p f c).name = c.name := by
  cases p with
  | nil => exact hf c
  | cons k p =>
    rw [Cmd.update]
    cases subAt c.sub k <;> rfl

theorem Cmd.update_sound (p : List String) (f : Cmd → Cmd)
    (hname : ∀ d, (f d).name = d.name) (hf : ∀ d, d.Sound → (f d).Sound) :
    ∀ c : Cmd, c.Sound → (Cmd.update p f c).Sound := by
  induction p with
  | nil => intro c h; exact hf c h
  | cons k p ih =>
    intro c h
    rw [Cmd.update]
    cases hs : subAt c.sub k with
    | none => exact h
    | some d =>
      exact Cmd.sound_subSet c.cfg c.argsOpts c.flagSet c.args c k d _ h rfl hs
        (Cmd.update_name p f hname d)
        (ih d (h.within (Cmd.within_of_sub (subAt_mem hs) (Or.inl rfl))))

theorem Cmd.parse_name (c : Cmd) (args : List String) : (c.parse args).1.name = c.name := by
  unfold Cmd.name
  rw [Cmd.parse_cfg]

theorem Cmd.Parse_name (c : Cmd) (args : List String) : (c.Parse args).1.name = c.name := by
  rcases Cmd.Parse_fst c args with h | h
  · rw [h]
  · rw [h, Cmd.parse_name]

theorem Cmd.collect_sound (c : Cmd) (L : List String) (h : c.Sound) : (c.collect L).1.Sound :=
  Cmd.sound_congr (by unfold Cmd.name; rw [Cmd.collect_cfg]) (Cmd.collect_sub c L) h

theorem parse_sound (c : Cmd) : ∀ args : List String, c.Sound → (c.parse args).1.Sound := by
  induction c using Cmd.induct with
  | h cfg o f a sub ih =>
    intro args h
    cases args with
    | nil => rw [Cmd.parse]; exact h
    | cons a0 tl =>
      cases hf : f.Parse tl with
      | error e => rw [Cmd.parse_flags_error cfg o f a sub a0 tl e hf]; exact h
      | panic pv => rw [Cmd.parse_flags_panic cfg o f a sub a0 tl pv hf]; exact h
      | exit n => rw [Cmd.parse_flags_exit cfg o f a sub a0 tl n hf]; exact h
      | ok rest =>
        cases rest with
        | nil =>
          rw [Cmd.parse_nil_rest cfg o f a sub a0 tl hf]
          exact Cmd.collect_sound _ _ h
        | cons t rest =>
          cases hs : subAt sub t with
          | none =>
            rw [Cmd.parse_no_sub cfg o f a sub a0 tl t rest hf hs]
            exact Cmd.collect_sound _ _ h
          | some d =>
            have hd : d.Sound := h.within (Cmd.within_of_sub (subAt_mem hs) (Or.inl rfl))
            have hnew : (Cmd.mk cfg o f a (subSet sub t (d.parse (t :: rest)).1)).Sound :=
              Cmd.sound_subSet cfg o f a (Cmd.mk cfg o f a sub) t d _ h rfl hs
                (Cmd.parse_name d _) (ih t d (subAt_mem hs) (t :: rest) hd)
            rw [Cmd.parse_sub cfg o f a sub a0 tl t rest d hf hs]
            cases (d.parse (t :: rest)).2 with
            | ok r => exact Cmd.collect_sound _ _ hnew
            | error e => exact hnew
            | panic v => exact hnew
            | exit n => exact hnew

theorem Parse_sound (c : Cmd) (args : List String) (h : c.Sound) : (c.Parse args).1.Sound := by
  rcases Cmd.Parse_fst c args with h1 | h1
  · rw [h1]; exact h
  · rw [h1]; exact parse_sound c args h

theorem Cmd.SubCommand_name (c : Cmd) (name synopsis : String)
    (options : List (subConfig → subConfig)) :
    (c.SubCommand name synopsis options).1.name = c.name := by
  unfold Cmd.SubCommand
  split <;> rfl

theorem SubCommand_sound (c : Cmd) (name synopsis : String)
    (options : List (subConfig → subConfig)) (h : c.Sound) :
    (c.SubCommand name synopsis options).1.Sound := by
  unfold Cmd.SubCommand
  cases hs : subAt c.sub name with
  | some d => exact h
  | none =>
    simp only []
    rw [Cmd.sound_iff] at h ⊢
    constructor
    · show ((subSet c.sub name _).map Prod.fst).Nodup
      rw [subSet_of_absent _ _ _ hs, List.map_append, List.map_cons, List.map_nil]
      refine List.Nodup.append h.1 (List.nodup_singleton _) ?_
      rw [List.disjoint_singleton]
      exact (subAt_none_iff _ _).1 hs
    · intro k2 x hx
      have hx1 : (k2, x) ∈ subSet c.sub name _ := hx
      rcases mem_subSet hx1 with h1 | ⟨h1, h2⟩
      · exact h.2 k2 x h1
      · subst h1; subst h2
        exact ⟨rfl, newCmd_sound _⟩

theorem Cmd.Args_name (c : Cmd) (opts : Option ArgsOpts) : (c.Args opts).1.name = c.name := by
  unfold Cmd.Args
  split <;> rfl

theorem Cmd.Args_sub (c : Cmd) (opts : Option ArgsOpts) : (c.Args opts).1.sub = c.sub := by
  unfold Cmd.Args
  split <;> rfl

/-- Every built tree has distinct keys at each node and names its sub
commands after their parents. -/
theorem Built.sound {c : Cmd} (h : Built c) : c.Sound := by
  induction h with
  | root arg0 options => exact newCmd_sound _
  | subCommand c p name synopsis options _ ih =>
    exact Cmd.update_sound p _ (fun d => Cmd.SubCommand_name d _ _ _)
      (fun d hd => SubCommand_sound d _ _ _ hd) c ih
  | args c p opts _ ih =>
    exact Cmd.update_sound p _ (fun d => Cmd.Args_name d _)
      (fun d hd => Cmd.sound_congr (Cmd.Args_name d _) (Cmd.Args_sub d _) hd) c ih
  | flags c p formal _ ih =>
    exact Cmd.update_sound p (Cmd.setFormal formal) (fun d => rfl)
      (fun d hd => Cmd.sound_congr (c := d) rfl rfl hd) c ih
  | parse c p args _ ih =>
    exact Cmd.update_sound p _ (fun d => Cmd.Parse_name d _)
      (fun d hd => Parse_sound d _ hd) c ih

/-! ## The sorted names of the sub commands -/

/-- C12: for every node of every built tree, whatever the order in which its
sub commands were added, `subNames` is strictly increasing in the order of
strings and is a rearrangement of the keys of the child mapping, which are
distinct: it holds each child name exactly once and nothing else.  The list
is the same for every map with the same keys, whatever their order. -/
theorem subNames_sorted (c n : Cmd) (hbuilt : Built c) (hn : c.Within n) :
    List.Sorted (· < ·) n.subNames ∧
    n.subNames.Perm (n.sub.map Prod.fst) ∧
    (n.sub.map Prod.fst).Nodup ∧ n.subNames.Nodup ∧
    (∀ k, k ∈ n.subNames ↔ subAt n.sub k ≠ none) ∧
    (∀ m : Cmd, (m.sub.map Prod.fst).Perm (n.sub.map Prod.fst) → m.subNames = n.subNames) := by
  have hnodup : (n.sub.map Prod.fst).Nodup := (hbuilt.sound n hn).1
  have hperm : n.subNames.Perm (n.sub.map Prod.fst) := sortStrings_perm _
  refine ⟨sortStrings_strict _ hnodup, hperm, hnodup, hperm.nodup_iff.2 hnodup, ?_, ?_⟩
  · intro k
    rw [hperm.mem_iff, ne_eq, subAt_none_iff, not_not]
  · intro m hm
    exact sortStrings_of_perm _ _ hm

/-- Witness of C12: the sub commands `pull`, `add` and `commit`, added in
this order, are listed as `add`, `commit`, `pull`. -/
theorem subNames_sorted_witness :
    Built exThreeSubs ∧ exThreeSubs.Within exThreeSubs ∧
    exThreeSubs.sub.map Prod.fst = ["pull", "add", "commit"] ∧
    exThreeSubs.subNames = ["add", "commit", "pull"] ∧
    List.Sorted (· < ·) exThreeSubs.subNames :=
  have hb : Built exThreeSubs :=
    Built.subCommand _ [] "commit" "" [] (Built.subCommand _ [] "add" "" []
      (Built.subCommand _ [] "pull" "" [] (Built.root "cmd" [OptErrorHandling .ContinueOnError])))
  ⟨hb, Or.inl rfl, by decide, by decide, (subNames_sorted exThreeSubs exThreeSubs hb (Or.inl rfl)).1⟩

/-! ## Names are stable -/

theorem nodeAt_keep (c c2 : Cmd) (hname : c2.name = c.name)
    (hsub : ∀ k d, subAt c.sub k = some d → ∃ d2, subAt c2.sub k = some d2 ∧
      ∀ p n, nodeAt p d = some n → ∃ n2, nodeAt p d2 = some n2 ∧ n2.name = n.name) :
    ∀ p n, nodeAt p c = some n → ∃ n2, nodeAt p c2 = some n2 ∧ n2.name = n.name := by
  intro p n h
  cases p with
  | nil =>
    simp only [nodeAt, Option.some.injEq] at h
    subst h
    exact ⟨c2, rfl, hname⟩
  | cons k p =>
    rw [nodeAt] at h ⊢
    cases hs : subAt c.sub k with
    | none => rw [hs] at h; cases h
    | some d =>
      rw [hs] at h
      obtain ⟨d2, h1, h2⟩ := hsub k d hs
      rw [h1]
      exact h2 p n h

theorem nodeAt_keep_same (c c2 : Cmd) (hname : c2.name = c.name) (hsub : c2.sub = c.sub) :
    ∀ p n, nodeAt p c = some n → ∃ n2, nodeAt p c2 = some n2 ∧ n2.name = n.name :=
  nodeAt_keep c c2 hname (fun k d hd => ⟨d, by rw [hsub]; exact hd, fun p n h => ⟨n, h, rfl⟩⟩)

theorem nodeAt_keep_subSet (c c2 : Cmd) (t : String) (d d2 : Cmd) (hname : c2.name = c.name)
    (hsub : c2.sub = subSet c.sub t d2) (hs : subAt c.sub t = some d)
    (hd : ∀ p n, nodeAt p d = some n → ∃ n2, nodeAt p d2 = some n2 ∧ n2.name = n.name) :
    ∀ p n, nodeAt p c = some n → ∃ n2, nodeAt p c2 = some n2 ∧ n2.name = n.name := by
  apply nodeAt_keep c c2 hname
  intro k x hx
  rw [hsub, subAt_subSet]
  by_cases hk : k = t
  · subst hk
    rw [hs] at hx
    cases hx
    exact ⟨d2, by rw [if_pos rfl], hd⟩
  · exact ⟨x, by rw [if_neg hk]; exact hx, fun p n h => ⟨n, h, rfl⟩⟩

theorem keepsNames_update (q : List String) (f : Cmd → Cmd) (hf : KeepsNames f) :
    KeepsNames (Cmd.update q f) := by
  induction q with
  | nil => exact hf
  | cons k q ih =>
    intro c
    rw [Cmd.update]
    cases hs : subAt c.sub k with
    | none => exact fun p n h => ⟨n, h, rfl⟩
    | some d => exact nodeAt_keep_subSet c _ k d _ rfl rfl hs (ih d)

theorem keepsNames_SubCommand (name synopsis : String) (options : List (subConfig → subConfig)) :
    KeepsNames (fun d => (d.SubCommand name synopsis options).1) := by
  intro c
  apply nodeAt_keep c _ (Cmd.SubCommand_name c _ _ _)
  intro k d hd
  refine ⟨d, ?_, fun p n h => ⟨n, h, rfl⟩⟩
  show subAt (c.SubCommand name synopsis options).1.sub k = some d
  unfold Cmd.SubCommand
  cases hs : subAt c.sub name with
  | some x => exact hd
  | none =>
    show subAt (subSet c.sub name _) k = some d
    rw [subAt_subSet, if_neg]
    · exact hd
    · intro hk
      subst hk
      rw [hs] at hd
      cases hd

theorem keepsNames_Args (opts : Option ArgsOpts) : KeepsNames (fun d => (d.Args opts).1) :=
  fun c => nodeAt_keep_same c _ (Cmd.Args_name c _) (Cmd.Args_sub c _)

theorem keepsNames_setFormal (formal : List Flag) : KeepsNames (Cmd.setFormal formal) :=
  fun c => nodeAt_keep_same c _ rfl rfl

theorem keepsNames_parse (args : List String) : KeepsNames (fun d => (d.parse args).1) := by
  intro c
  show ∀ p n, nodeAt p c = some n → ∃ n2, nodeAt p (c.parse args).1 = some n2 ∧ n2.name = n.name
  revert args
  induction c using Cmd.induct with
  | h cfg o f a sub ih =>
    intro args
    have same : ∀ p n, nodeAt p (Cmd.mk cfg o f a sub) = some n →
        ∃ n2, nodeAt p (Cmd.mk cfg o f a sub) = some n2 ∧ n2.name = n.name :=
      fun p n h => ⟨n, h, rfl⟩
    have coll : ∀ L, ∀ p n, nodeAt p (Cmd.mk cfg o f a sub) = some n →
        ∃ n2, nodeAt p ((Cmd.mk cfg o f a sub).collect L).1 = some n2 ∧ n2.name = n.name :=
      fun L => nodeAt_keep_same _ _ (by unfold Cmd.name; rw [Cmd.collect_cfg])
        (Cmd.collect_sub _ L)
    cases args with
    | nil => rw [Cmd.parse]; exact same
    | cons a0 tl =>
      cases hf : f.Parse tl with
      | error e => rw [Cmd.parse_flags_error cfg o f a sub a0 tl e hf]; exact same
      | panic pv => rw [Cmd.parse_flags_panic cfg o f a sub a0 tl pv hf]; exact same
      | exit n => rw [Cmd.parse_flags_exit cfg o f a sub a0 tl n hf]; exact same
      | ok rest =>
        cases rest with
        | nil => rw [Cmd.parse_nil_rest cfg o f a sub a0 tl hf]; exact coll _
        | cons t rest =>
          cases hs : subAt sub t with
          | none => rw [Cmd.parse_no_sub cfg o f a sub a0 tl t rest hf hs]; exact coll _
          | some d =>
            have hd := ih t d (subAt_mem hs) (t :: rest)
            have plain : ∀ p n, nodeAt p (Cmd.mk cfg o f a sub) = some n →
                ∃ n2, nodeAt p (Cmd.mk cfg o f a (subSet sub t (d.parse (t :: rest)).1)) =
                  some n2 ∧ n2.name = n.name :=
              nodeAt_keep_subSet _ _ t d _ rfl rfl hs hd
            rw [Cmd.parse_sub cfg o f a sub a0 tl t rest d hf hs]
            cases (d.parse (t :: rest)).2 with
            | ok r =>
              exact nodeAt_keep_subSet _ _ t d _ (by unfold Cmd.name; rw [Cmd.collect_cfg]; rfl)
                (Cmd.collect_sub _ r) hs hd
            | error e => exact plain
            | panic v => exact plain
            | exit n => exact plain

theorem keepsNames_Parse (args : List String) : KeepsNames (fun d => (d.Parse args).1) := by
  intro c p n h
  rcases Cmd.Parse_fst c args with h1 | h1
  · exact ⟨n, by show nodeAt p (c.Parse args).1 = some n; rw [h1]; exact h, rfl⟩
  · obtain ⟨n2, h2, h3⟩ := keepsNames_parse args c p n h
    exact ⟨n2, by show nodeAt p (c.Parse args).1 = some n2; rw [h1]; exact h2, h3⟩

/-- C13: in every built tree each node that is not the root is named by its
parent's name, a blank, and the key under which the parent's child mapping
holds it.  No later call changes the name of an existing node: after
`SubCommand`, `Args`, a flag definition or `Parse`, made on the root or
through the pointer to any node, every node is found under the same keys and
has the name it had.  (`validate` only reads the tree.) -/
theorem names_are_stable (c : Cmd) (hbuilt : Built c) :
    (∀ n k d, c.Within n → (k, d) ∈ n.sub → d.name = n.name ++ " " ++ k) ∧
    (∀ q name synopsis options,
      KeepsNames (Cmd.update q (fun d => (d.SubCommand name synopsis options).1))) ∧
    (∀ q opts, KeepsNames (Cmd.update q (fun d => (d.Args opts).1))) ∧
    (∀ q formal, KeepsNames (Cmd.update q (Cmd.setFormal formal))) ∧
    (∀ q args, KeepsNames (Cmd.update q (fun d => (d.Parse args).1))) ∧
    (∀ args, (c.Parse args).1.name = c.name ∧ (c.parse args).1.name = c.name) :=
  ⟨fun n k d hn hd => (hbuilt.sound n hn).2 k d hd,
    fun q name synopsis options =>
      keepsNames_update q _ (keepsNames_SubCommand name synopsis options),
    fun q opts => keepsNames_update q _ (keepsNames_Args opts),
    fun q formal => keepsNames_update q _ (keepsNames_setFormal formal),
    fun q args => keepsNames_update q _ (keepsNames_Parse args),
    fun args => ⟨Cmd.Parse_name c args, Cmd.parse_name c args⟩⟩

/-- Witness of C13: the root `cmd` with the sub command `a`, which has the sub
command `b`; the names are `cmd`, `cmd a` and `cmd a b`, also after a parse. -/
theorem names_are_stable_witness :
    Built exNested ∧
    (nodeAt ["a"] exNested).map Cmd.name = some "cmd a" ∧
    (nodeAt ["a", "b"] exNested).map Cmd.name = some "cmd a b" ∧
    (nodeAt ["a", "b"] (exNested.Parse ["cmd", "a", "b"]).1).map Cmd.name = some "cmd a b" ∧
    (∀ n k d, exNested.Within n → (k, d) ∈ n.sub → d.name = n.name ++ " " ++ k) :=
  have hb : Built exNested :=
    Built.subCommand _ ["a"] "b" "" [] (Built.subCommand _ [] "a" "" []
      (Built.root "cmd" [OptErrorHandling .ContinueOnError]))
  ⟨hb, by decide, by decide, by decide, (names_are_stable exNested hb).1⟩

/-! ## Validation on trees with non-empty names -/

theorem validateSubs_some {sub : List (String × Cmd)} {p : String} {v : Fatal}
    (h : validateSubs sub p = some v) : ∃ k m, (k, m) ∈ sub ∧ m.validatePositional p = some v := by
  induction sub with
  | nil => rw [validateSubs] at h; cases h
  | cons hd tl ih =>
    rcases hd with ⟨k1, c1⟩
    rw [validateSubs] at h
    cases hc : c1.validatePositional p with
    | some w =>
      rw [hc] at h
      simp only [Option.some.injEq] at h
      subst h
      exact ⟨k1, c1, List.mem_cons_self _ _, hc⟩
    | none =>
      rw [hc] at h
      obtain ⟨k, m, hm, hv⟩ := ih h
      exact ⟨k, m, List.mem_cons_of_mem _ hm, hv⟩

theorem validateSubs_ne_none {sub : List (String × Cmd)} {p : String} {k : String} {m : Cmd}
    (hm : (k, m) ∈ sub) (h : m.validatePositional p ≠ none) : validateSubs sub p ≠ none := by
  intro hn
  exact h ((validateSubs_none sub p).1 hn k m hm)

theorem Cmd.FirstSpec.reaches {c d : Cmd} (h : c.FirstSpec d) :
    c.Within d ∧ d.argsOpts ≠ none := by
  induction h with
  | here hs => exact ⟨Or.inl rfl, hs⟩
  | down _ hm _ ih => exact ⟨Cmd.within_of_sub hm ih.1, ih.2⟩

theorem Cmd.NearestSpecAbove.descends {a d : Cmd} (h : a.NearestSpecAbove d) :
    a.Descends d ∧ d.argsOpts ≠ none := by
  obtain ⟨_, k, m, hm, hf⟩ := h
  exact ⟨Cmd.Descends.of_sub hm hf.reaches.1, hf.reaches.2⟩

/-- Under a carried name that is not empty, a panic of `validatePositional`
reports the carried name and the first node with a spec on some path. -/
theorem validatePositional_carried (c : Cmd) :
    ∀ (p : String) (v : Fatal), p ≠ "" → c.validatePositional p = some v →
      ∃ d, c.FirstSpec d ∧ v = .illegalPositional p d.name := by
  induction c using Cmd.induct with
  | h cfg o f a sub ih =>
    intro p v hp hv
    cases o with
    | some opt =>
      rw [Cmd.validatePositional, if_pos hp] at hv
      cases hv
      exact ⟨_, .here (by simp [Cmd.argsOpts]), rfl⟩
    | none =>
      rw [Cmd.validatePositional] at hv
      obtain ⟨k, m, hm, hmv⟩ := validateSubs_some hv
      obtain ⟨d, hd, hvd⟩ := ih k m hm p v hp hmv
      exact ⟨d, .down rfl hm hd, hvd⟩

theorem validatePositional_of_spec (c : Cmd) :
    ∀ p : String, p ≠ "" → (∃ n, c.Within n ∧ n.argsOpts ≠ none) →
      c.validatePositional p ≠ none := by
  induction c using Cmd.induct with
  | h cfg o f a sub ih =>
    intro p hp hex
    cases o with
    | some opt =>
      rw [Cmd.validatePositional, if_pos hp]
      exact Option.some_ne_none _
    | none =>
      rw [Cmd.validatePositional]
      obtain ⟨n, hn, hspec⟩ := hex
      rcases hn with hn | hn
      · subst hn
        exact absurd rfl hspec
      · obtain ⟨k, m, hm, hw⟩ := hn.exists_sub
        exact validateSubs_ne_none hm (ih k m hm p hp ⟨n, hw, hspec⟩)

theorem validate_reports (c : Cmd) :
    (∀ n, c.Within n → n.name ≠ "") → ∀ v, c.validatePositional "" = some v →
      ∃ a d, c.Within a ∧ a.NearestSpecAbove d ∧ v = .illegalPositional a.name d.name := by
  induction c using Cmd.induct with
  | h cfg o f a sub ih =>
    intro hnames v hv
    cases o with
    | some opt =>
      rw [Cmd.validatePositional] at hv
      simp only [ne_eq, not_true_eq_false, if_false] at hv
      obtain ⟨k, m, hm, hmv⟩ := validateSubs_some hv
      have hne : cfg.name ≠ "" := hnames (Cmd.mk cfg (some opt) f a sub) (Or.inl rfl)
      obtain ⟨d, hd, hvd⟩ := validatePositional_carried m cfg.name v hne hmv
      exact ⟨_, d, Or.inl rfl, ⟨by simp [Cmd.argsOpts], k, m, hm, hd⟩, hvd⟩
    | none =>
      rw [Cmd.validatePositional] at hv
      obtain ⟨k, m, hm, hmv⟩ := validateSubs_some hv
      have hm1 : (k, m) ∈ (Cmd.mk cfg none f a sub).sub := hm
      obtain ⟨x, d, hx, hxd, hvd⟩ :=
        ih k m hm (fun n hn => hnames n (Cmd.within_of_sub hm1 hn)) v hmv
      exact ⟨x, d, Cmd.within_of_sub hm1 hx, hxd, hvd⟩

theorem validate_of_conflict (c : Cmd) :
    (∀ n, c.Within n → n.name ≠ "") → c.Conflict → c.validatePositional "" ≠ none := by
  induction c using Cmd.induct with
  | h cfg o f a sub ih =>
    intro hnames hc
    obtain ⟨x, d, hx, hxd, hxs, hds⟩ := hc
    cases o with
    | some opt =>
      rw [Cmd.validatePositional]
      simp only [ne_eq, not_true_eq_false, if_false]
      have hne : cfg.name ≠ "" := hnames (Cmd.mk cfg (some opt) f a sub) (Or.inl rfl)
      rcases hx with hx | hx
      · subst hx
        obtain ⟨k, m, hm, hw⟩ := hxd.exists_sub
        exact validateSubs_ne_none hm (validatePositional_of_spec m _ hne ⟨d, hw, hds⟩)
      · obtain ⟨k, m, hm, hw⟩ := hx.exists_sub
        exact validateSubs_ne_none hm (validatePositional_of_spec m _ hne ⟨x, hw, hxs⟩)
    | none =>
      rw [Cmd.validatePositional]
      rcases hx with hx | hx
      · subst hx
        exact absurd rfl hxs
      · obtain ⟨k, m, hm, hw⟩ := hx.exists_sub
        exact validateSubs_ne_none hm
          (ih k m hm (fun n hn => hnames n (Cmd.within_of_sub hm hn)) ⟨x, d, hw, hxd, hxs, hds⟩)

theorem String.append_blank_ne_empty (a k : String) : a ++ " " ++ k ≠ "" := by
  intro h
  have hl := congrArg String.length h
  simp only [String.length_append] at hl
  have h1 : " ".length = 1 := rfl
  have h0 : "".length = 0 := rfl
  omega

/-- In a built tree whose root has a non-empty name every node has one. -/
theorem Built.names_ne {b : Cmd} (hb : Built b) (hroot : b.name ≠ "") :
    ∀ n, b.Within n → n.name ≠ "" := by
  intro n hn
  rcases hn with hn | hn
  · subst hn; exact hroot
  · have hs := hb.sound
    clear hb hroot
    induction hn with
    | sub hk =>
      rw [(hs _ (Or.inl rfl)).2 _ _ hk]
      exact String.append_blank_ne_empty _ _
    | step hk _ ih => exact ih (hs.within (Cmd.within_of_sub hk (Or.inl rfl)))

/-- C18: on a tree all of whose nodes have a non-empty name, `validate`,
that is `validatePositional("")`, panics if and only if some node and a
strict descendant of it both declare a positional spec; the panic reports the
names of a node `d` that declares a spec and of the nearest ancestor of `d`
that declares one.  Every built tree whose root has a non-empty name is such
a tree. -/
theorem validate_iff_conflict (c : Cmd) (hnames : ∀ n, c.Within n → n.name ≠ "") :
    (c.validate ≠ none ↔ c.Conflict) ∧
    (∀ v, c.validate = some v → ∃ a d, c.Within a ∧ a.NearestSpecAbove d ∧
      a.argsOpts ≠ none ∧ d.argsOpts ≠ none ∧ a.Descends d ∧
      v = .illegalPositional a.name d.name) ∧
    (∀ b, Built b → b.name ≠ "" → ∀ n, b.Within n → n.name ≠ "") := by
  refine ⟨⟨?_, validate_of_conflict c hnames⟩, ?_, fun b hb hr => hb.names_ne hr⟩
  · intro h
    by_contra hc
    exact h (validate_of_no_conflict c hc)
  · intro v hv
    obtain ⟨a, d, ha, had, hvd⟩ := validate_reports c hnames v hv
    exact ⟨a, d, ha, had, had.1, had.descends.2, had.descends.1, hvd⟩

/-- Witness of C18: the root `cmd` and its sub command `sub` both declare a
spec, and `validate` panics with their names. -/
theorem validate_iff_conflict_witness :
    (∀ n, exBoth.Within n → n.name ≠ "") ∧
    exBoth.validate = some (.illegalPositional "cmd" "cmd sub") ∧
    exBoth.Conflict ∧ exCopy.validate = none :=
  have hb : Built exBoth :=
    Built.args _ ["sub"] none (Built.subCommand _ [] "sub" "" []
      (Built.args _ [] (some { N := 2, Usage := "", Details := "" })
        (Built.root "cmd" [OptErrorHandling .ContinueOnError])))
  have hn : ∀ n, exBoth.Within n → n.name ≠ "" := hb.names_ne (by decide)
  ⟨hn, by decide, (validate_iff_conflict exBoth hn).1.1 (by decide), rfl⟩

/-! ## The recursion of the parse, on the code -/

theorem nodeAt_rel (R : Cmd → Cmd → Prop) (c c2 : Cmd) (hroot : R c c2)
    (hsub : ∀ k d, subAt c.sub k = some d → ∃ d2, subAt c2.sub k = some d2 ∧
      ∀ p n, nodeAt p d = some n → ∃ n2, nodeAt p d2 = some n2 ∧ R n n2) :
    ∀ p n, nodeAt p c = some n → ∃ n2, nodeAt p c2 = some n2 ∧ R n n2 := by
  intro p n h
  cases p with
  | nil =>
    simp only [nodeAt, Option.some.injEq] at h
    subst h
    exact ⟨c2, rfl, hroot⟩
  | cons k p =>
    rw [nodeAt] at h ⊢
    cases hs : subAt c.sub k with
    | none => rw [hs] at h; cases h
    | some d =>
      rw [hs] at h
      obtain ⟨d2, h1, h2⟩ := hsub k d hs
      rw [h1]
      exact h2 p n h

theorem Cmd.collect_args (c : Cmd) (L : List String) :
    (c.collect L).1.args = c.args ∨ (c.collect L).1.args = some L := by
  rw [Cmd.collect_fst]
  unfold Cmd.setArgs
  split
  · split <;> exact Or.inl rfl
  · split
    · exact Or.inl rfl
    · exact Or.inr rfl

/-- Every binding that `parse` writes is a suffix of the tokens after the
first one of the vector it was called with: a node of the tree keeps its
`args` pointer or is bound to such a suffix. -/
theorem parse_writes_suffix (c : Cmd) :
    ∀ (args S : List String), args.tail <:+ S → ∀ p n0, nodeAt p c = some n0 →
      ∃ n, nodeAt p (c.parse args).1 = some n ∧
        (n.args = n0.args ∨ ∃ L, n.args = some L ∧ L <:+ S) := by
  induction c using Cmd.induct with
  | h cfg o f a sub ih =>
    intro args S hS
    have same : ∀ p n0, nodeAt p (Cmd.mk cfg o f a sub) = some n0 →
        ∃ n, nodeAt p (Cmd.mk cfg o f a sub) = some n ∧
          (n.args = n0.args ∨ ∃ L, n.args = some L ∧ L <:+ S) :=
      fun p n0 h => ⟨n0, h, Or.inl rfl⟩
    have coll : ∀ L, L <:+ S → ∀ p n0, nodeAt p (Cmd.mk cfg o f a sub) = some n0 →
        ∃ n, nodeAt p ((Cmd.mk cfg o f a sub).collect L).1 = some n ∧
          (n.args = n0.args ∨ ∃ L, n.args = some L ∧ L <:+ S) := by
      intro L hL
      apply nodeAt_rel (fun n0 n => n.args = n0.args ∨ ∃ L, n.args = some L ∧ L <:+ S)
      · rcases Cmd.collect_args (Cmd.mk cfg o f a sub) L with h | h
        · exact Or.inl h
        · exact Or.inr ⟨L, h, hL⟩
      · intro k d hd
        exact ⟨d, by rw [Cmd.collect_sub]; exact hd, fun p n h => ⟨n, h, Or.inl rfl⟩⟩
    cases args with
    | nil => rw [Cmd.parse]; exact same
    | cons a0 tl =>
      have hS1 : tl <:+ S := hS
      cases hf : f.Parse tl with
      | error e => rw [Cmd.parse_flags_error cfg o f a sub a0 tl e hf]; exact same
      | panic pv => rw [Cmd.parse_flags_panic cfg o f a sub a0 tl pv hf]; exact same
      | exit n => rw [Cmd.parse_flags_exit cfg o f a sub a0 tl n hf]; exact same
      | ok rest =>
        have hrest : rest <:+ S := (FlagSet.Parse_suffix f tl rest hf).trans hS1
        cases rest with
        | nil => rw [Cmd.parse_nil_rest cfg o f a sub a0 tl hf]; exact coll _ hrest
        | cons t rest =>
          cases hs : subAt sub t with
          | none =>
            rw [Cmd.parse_no_sub cfg o f a sub a0 tl t rest hf hs]
            exact coll _ hrest
          | some d =>
            have hd := ih t d (subAt_mem hs) (t :: rest) S
              ((List.suffix_cons t rest).trans hrest)
            have subs : ∀ k x, subAt sub k = some x →
                ∃ x2, subAt (subSet sub t (d.parse (t :: rest)).1) k = some x2 ∧
                  ∀ p n, nodeAt p x = some n → ∃ n2, nodeAt p x2 = some n2 ∧
                    (n2.args = n.args ∨ ∃ L, n2.args = some L ∧ L <:+ S) := by
              intro k x hx
              rw [subAt_subSet]
              by_cases hk : k = t
              · subst hk
                rw [hs] at hx
                cases hx
                exact ⟨_, by rw [if_pos rfl], hd⟩
              · exact ⟨x, by rw [if_neg hk]; exact hx, fun p n h => ⟨n, h, Or.inl rfl⟩⟩
            have plain : ∀ p n0, nodeAt p (Cmd.mk cfg o f a sub) = some n0 →
                ∃ n, nodeAt p (Cmd.mk cfg o f a (subSet sub t (d.parse (t :: rest)).1)) =
                  some n ∧ (n.args = n0.args ∨ ∃ L, n.args = some L ∧ L <:+ S) :=
              nodeAt_rel (fun n0 n => n.args = n0.args ∨ ∃ L, n.args = some L ∧ L <:+ S)
                _ _ (Or.inl rfl) subs
            rw [Cmd.parse_sub cfg o f a sub a0 tl t rest d hf hs]
            cases hd2 : (d.parse (t :: rest)).2 with
            | error e => exact plain
            | panic v => exact plain
            | exit n => exact plain
            | ok r =>
              have hr : r = [] :=
                (passes_of_parse_ok d (t :: rest) r (List.cons_ne_nil _ _) hd2).1
              subst hr
              apply nodeAt_rel (fun n0 n => n.args = n0.args ∨ ∃ L, n.args = some L ∧ L <:+ S)
              · rcases Cmd.collect_args
                  (Cmd.mk cfg o f a (subSet sub t (d.parse (t :: rest)).1)) [] with h | h
                · exact Or.inl h
                · exact Or.inr ⟨[], h, List.nil_suffix⟩
              · intro k x hx
                obtain ⟨x2, h1, h2⟩ := subs k x hx
                exact ⟨x2, by rw [Cmd.collect_sub]; exact h1, h2⟩

/-- C14: `parse` is a total function of the finite tree and the vector.  On a
non-empty vector it makes at most one recursive call: when the first token
that its flag host leaves names a sub command, `parse` is computed from the
`parse` of that sub command on the tokens the flag host left, a vector
strictly shorter than the one received, and otherwise from no other call.
The visits follow these calls, so they are the calls of `parse`: they start
at the root with the whole vector, each next one received a strictly shorter,
non-empty vector, and there are at most as many as tokens in the vector and
at most the depth of the tree plus one.  The result of `parse` depends on
them: it is without error exactly when every visit passes, and every binding
it writes is a suffix of the tokens after the first, shorter than the
vector. -/
theorem parse_visits_bounded (c : Cmd) (args : List String) (hargs : args ≠ []) :
    (∃ c1 r, c.parse args = (c1, r)) ∧
    (∀ t rest d, c.flagSet.Parse args.tail = .ok (t :: rest) → subAt c.sub t = some d →
      (t :: rest).length < args.length ∧
      c.parse args =
        (match (d.parse (t :: rest)).2 with
          | .ok r => (Cmd.mk c.cfg c.argsOpts c.flagSet c.args
              (subSet c.sub t (d.parse (t :: rest)).1)).collect r
          | .error e => (.mk c.cfg c.argsOpts c.flagSet c.args
              (subSet c.sub t (d.parse (t :: rest)).1), .error (c.name ++ " > " ++ e))
          | .panic v => (.mk c.cfg c.argsOpts c.flagSet c.args
              (subSet c.sub t (d.parse (t :: rest)).1), .panic v)
          | .exit n => (.mk c.cfg c.argsOpts c.flagSet c.args
              (subSet c.sub t (d.parse (t :: rest)).1), .exit n)) ∧
      c.visits args = ⟨[], c, args, some []⟩ ::
        (d.visits (t :: rest)).map (fun v => { v with path := t :: v.path })) ∧
    ((∀ t rest, c.flagSet.Parse args.tail = .ok (t :: rest) → subAt c.sub t = none) →
      (c.visits args).length = 1 ∧
      c.parse args =
        (match c.flagSet.Parse args.tail with
          | .ok rest => c.collect rest
          | .error e => (c, .error (c.name ++ ": bad flags: " ++ e))
          | .panic v => (c, .panic v)
          | .exit n => (c, .exit n))) ∧
    (c.visits args).head?.map Visit.args = some args ∧
    List.Chain' (fun v w : Visit => w.args.length < v.args.length) (c.visits args) ∧
    (∀ v ∈ c.visits args, v.args ≠ []) ∧
    (c.visits args).length ≤ args.length ∧
    (c.visits args).length ≤ c.depth + 1 ∧
    ((∃ r, (c.parse args).2 = .ok r) ↔ ∀ v ∈ c.visits args, v.Passes) ∧
    (∀ p n0, nodeAt p c = some n0 → ∃ n, nodeAt p (c.parse args).1 = some n ∧
      (n.args = n0.args ∨ ∃ L, n.args = some L ∧ L <:+ args.tail ∧
        L.length < args.length)) := by
  obtain ⟨h1, h2, h3, h4⟩ := visits_shrink c args hargs
  have htail : args.tail.length + 1 = args.length := by
    cases args with
    | nil => exact absurd rfl hargs
    | cons a0 tl => simp
  refine ⟨⟨_, _, rfl⟩, ?_, ?_, h1, h2, visits_args_ne_nil c args hargs, h3, h4, ?_, ?_⟩
  · intro t rest d hf hs
    have hlen := (FlagSet.Parse_suffix c.flagSet _ _ hf).length_le
    refine ⟨by omega, ?_, ?_⟩
    · cases c with
      | mk cfg o f a sub =>
        cases args with
        | nil => exact absurd rfl hargs
        | cons a0 tl => exact Cmd.parse_sub cfg o f a sub a0 tl t rest d hf hs
    · cases c with
      | mk cfg o f a sub => exact Cmd.visits_sub cfg o f a sub args t rest d hf hs
  · intro hno
    cases c with
    | mk cfg o f a sub =>
      cases args with
      | nil => exact absurd rfl hargs
      | cons a0 tl =>
        have hno1 : ∀ t rest, f.Parse tl = .ok (t :: rest) → subAt sub t = none := hno
        show ((Cmd.mk cfg o f a sub).visits (a0 :: tl)).length = 1 ∧
          (Cmd.mk cfg o f a sub).parse (a0 :: tl) =
            (match f.Parse tl with
              | .ok rest => (Cmd.mk cfg o f a sub).collect rest
              | .error e => (Cmd.mk cfg o f a sub, .error (cfg.name ++ ": bad flags: " ++ e))
              | .panic v => (Cmd.mk cfg o f a sub, .panic v)
              | .exit n => (Cmd.mk cfg o f a sub, .exit n))
        cases hf : f.Parse tl with
        | error e =>
          rw [Cmd.parse_flags_error cfg o f a sub a0 tl e hf,
            Cmd.visits_of_flags cfg o f a sub (a0 :: tl)
              (by intro r hr; rw [List.tail_cons, hf] at hr; cases hr)]
          exact ⟨rfl, rfl⟩
        | panic pv =>
          rw [Cmd.parse_flags_panic cfg o f a sub a0 tl pv hf,
            Cmd.visits_of_flags cfg o f a sub (a0 :: tl)
              (by intro r hr; rw [List.tail_cons, hf] at hr; cases hr)]
          exact ⟨rfl, rfl⟩
        | exit n =>
          rw [Cmd.parse_flags_exit cfg o f a sub a0 tl n hf,
            Cmd.visits_of_flags cfg o f a sub (a0 :: tl)
              (by intro r hr; rw [List.tail_cons, hf] at hr; cases hr)]
          exact ⟨rfl, rfl⟩
        | ok rest =>
          cases rest with
          | nil =>
            rw [Cmd.parse_nil_rest cfg o f a sub a0 tl hf,
              Cmd.visits_nil_rest cfg o f a sub (a0 :: tl) hf]
            exact ⟨rfl, rfl⟩
          | cons t rest =>
            have hs := hno1 t rest hf
            rw [Cmd.parse_no_sub cfg o f a sub a0 tl t rest hf hs,
              Cmd.visits_no_sub cfg o f a sub (a0 :: tl) t rest hf hs]
            exact ⟨rfl, rfl⟩
  · constructor
    · rintro ⟨r, hr⟩
      exact (passes_of_parse_ok c args r hargs hr).2
    · intro hall
      exact ⟨[], (parse_of_passes c args hargs hall).1⟩
  · intro p n0 hp
    obtain ⟨n, hn1, hn2⟩ := parse_writes_suffix c args args.tail (List.suffix_refl _) p n0 hp
    refine ⟨n, hn1, ?_⟩
    rcases hn2 with h | ⟨L, hL1, hL2⟩
    · exact Or.inl h
    · exact Or.inr ⟨L, hL1, hL2, by have := hL2.length_le; omega⟩

/-- Witness of C14: `cmd a b x y` on the root `cmd` with the sub command `a`,
which has the sub command `b`: three visits, with 5, 4 and 3 tokens, the
second one the call of `parse` on `a` with `a b x y`. -/
theorem parse_visits_bounded_witness :
    ["cmd", "a", "b", "x", "y"] ≠ [] ∧
    (exNested.visits ["cmd", "a", "b", "x", "y"]).map (fun v => v.args.length) = [5, 4, 3] ∧
    exNested.depth = 2 ∧
    (exNested.visits ["cmd", "a", "b", "x", "y"]).length ≤ 5 ∧
    (exNested.visits ["cmd", "a", "b", "x", "y"]).length ≤ exNested.depth + 1 ∧
    (∃ d, subAt exNested.sub "a" = some d ∧
      exNested.visits ["cmd", "a", "b", "x", "y"] =
        ⟨[], exNested, ["cmd", "a", "b", "x", "y"], some []⟩ ::
          (d.visits ["a", "b", "x", "y"]).map (fun v => { v with path := "a" :: v.path }) ∧
      (exNested.parse ["cmd", "a", "b", "x", "y"]).2 =
        (match (d.parse ["a", "b", "x", "y"]).2 with
          | .error e => .error ("cmd > " ++ e)
          | r => r)) ∧
    (exNested.parse ["cmd", "a", "b", "x", "y"]).2 = .error
      "cmd > cmd a > cmd a b: bad positional args: positional args not expected, got [x y]" :=
  have h := parse_visits_bounded exNested ["cmd", "a", "b", "x", "y"] (by decide)
  have hd : ∃ d, subAt exNested.sub "a" = some d := ⟨_, rfl⟩
  ⟨by decide, by decide, by decide, h.2.2.2.2.2.2.1, h.2.2.2.2.2.2.2.1,
    hd.elim (fun d hd1 => ⟨d, hd1,
      (h.2.1 "a" ["b", "x", "y"] d (by decide) hd1).2.2, by
        rw [(h.2.1 "a" ["b", "x", "y"] d (by decide) hd1).2.1]
        cases hd1
        decide⟩),
    by decide⟩

end Subcmd
